import Mathlib

/-!
Verification development for the bkdetect similarity-search engine.

The Python sources are embedded shallowly:

* `src/text_pipeline.py` → `BkDetect.TextPipeline` and its `transform`
  pipeline (markup stripping, lowercasing, the alphabet filter of the
  regular expression `[^a-z0-9а-яё']+` under IGNORECASE, whitespace
  tokenization, stopword filtering, stemming);
* `src/indexing.py` → `BkDetect.TfidfIndexer` with `partial_fit` and
  `query`, over term-count feature vectors (`List Nat`) produced by a
  hashing vectorizer;
* `src/source_finder.py` → `BkDetect.find_sources`,
  `BkDetect.aggregate_best_scores`, `BkDetect.locate_source_positions`,
  `BkDetect.truncate` and the per-file scanning loop.

Machine floats are modelled by exact values: a cosine similarity is kept
as the pair `(dot product, product of squared norms)` of naturals
(`BkDetect.Score`), whose real denotation `Score.toReal` is the cosine.
All order comparisons the code performs on float scores are realised by
the decidable comparison `Score.le`, proved equivalent to the real-number
order in `BkDetect.Score.le_iff_toReal`.
-/

namespace BkDetect

/-! ### Characters and low-level string operations -/

/-- The character class of the cleaning regex `[^a-z0-9а-яё']+` compiled
with `re.IGNORECASE` in `TextPipeline`: Latin letters, digits, Cyrillic
letters (with both cases and both cases of ё), and the apostrophe.
A character in this class is kept by `regex_sub`; characters outside it
are replaced by spaces. -/
def keepChar (c : Char) : Bool :=
  ('a' ≤ c && c ≤ 'z') || ('A' ≤ c && c ≤ 'Z') || ('0' ≤ c && c ≤ '9') ||
  ('а' ≤ c && c ≤ 'я') || ('А' ≤ c && c ≤ 'Я') || c = 'ё' || c = 'Ё' || c = '\''

/-- `str.lower()` restricted to the alphabets the cleaning regex keeps:
ASCII `A`–`Z`, Cyrillic `А`–`Я` and `Ё`.  Any other character is left
unchanged; characters outside these alphabets are removed by the regex
step anyway, so the composition `regex_sub ∘ lower` agrees with Python on
every character relevant to tokenization. -/
def lowerChar (c : Char) : Char :=
  if 'A' ≤ c && c ≤ 'Z' then Char.ofNat (c.toNat + 32)
  else if 'А' ≤ c && c ≤ 'Я' then Char.ofNat (c.toNat + 32)
  else if c = 'Ё' then 'ё'
  else c

/-- The whitespace characters of Python's `str.split()` / `str.strip()`
(ASCII subset). -/
def isSpaceChar (c : Char) : Bool :=
  c = ' ' || c = '\t' || c = '\x0a' || c = '\x0d' || c = '\x0b' || c = '\x0c'

/-- Modelled from the spec: the markup-stripping step performed by
`BeautifulSoup(text, "html.parser").get_text(separator=" ")`, which is
external library code.  Per the spec it removes HTML/XML tags and
collapses tag content to whitespace-separated text.  The model drops
every `<`…`>` span, emitting a single space in its place; on input
without `<` it is the identity, which is all the round-trip below uses. -/
def stripMarkupAux : Bool → List Char → List Char
  | _, [] => []
  | true, c :: rest =>
      if c = '>' then ' ' :: stripMarkupAux false rest else stripMarkupAux true rest
  | false, c :: rest =>
      if c = '<' then stripMarkupAux true rest else c :: stripMarkupAux false rest

/-- Markup stripping on full strings (see `stripMarkupAux`). -/
def stripMarkup (cs : List Char) : List Char :=
  stripMarkupAux false cs

/-- `self._NON_ALPHANUMERIC_RE.sub(" ", text)`: every maximal run of
characters outside `keepChar` becomes a single space.  The boolean flag
records whether the previous character was part of such a run. -/
def regexSubAux : Bool → List Char → List Char
  | _, [] => []
  | prevGap, c :: rest =>
      if keepChar c then c :: regexSubAux false rest
      else if prevGap then regexSubAux true rest
      else ' ' :: regexSubAux true rest

/-- The regex substitution on a whole string. -/
def regexSub (cs : List Char) : List Char :=
  regexSubAux false cs

/-- Python `str.split()` (no separator): split on runs of whitespace,
dropping empty pieces.  `cur` holds the characters of the current token
in reverse. -/
def splitWsAux (cur : List Char) : List Char → List (List Char)
  | [] => if cur.isEmpty then [] else [cur.reverse]
  | c :: rest =>
      if isSpaceChar c then
        if cur.isEmpty then splitWsAux [] rest
        else cur.reverse :: splitWsAux [] rest
      else splitWsAux (c :: cur) rest

/-- Python `str.split()` on a character list. -/
def splitWs (cs : List Char) : List (List Char) :=
  splitWsAux [] cs

/-- Python `str.strip()`: remove leading and trailing whitespace. -/
def pyStrip (s : String) : String :=
  String.mk (((s.toList.dropWhile isSpaceChar).reverse.dropWhile isSpaceChar).reverse)

/-- Python `str.rstrip()`: remove trailing whitespace. -/
def pyRstrip (s : String) : String :=
  String.mk ((s.toList.reverse.dropWhile isSpaceChar).reverse)

/-- `" ".join(tokens)` — character-level join with a single space. -/
def joinTokens (tokens : List String) : String :=
  String.mk (List.intercalate [' '] (tokens.map String.toList))

/-! ### `src/text_pipeline.py`: TextPipeline -/

/-- The configuration of `TextPipeline` after `__init__` has resolved the
language: the loaded stopword set (empty when `remove_stopwords` is false
or the language has no list) and the resolved stemming function (`none`
when `use_stemming` is false).  Modelled from the spec: the concrete
language resources — NLTK stopword lists, `stemmers.porter_ru`
(not under `src/`) and NLTK's `PorterStemmer` — are external, and the
spec requires of them only a pluggable, best-effort token transform, so
they appear here as data of the configuration. -/
structure TextPipeline where
  stopword_set : List String
  stemmer : Option (String → String)

namespace TextPipeline

/-- `_normalize_text`: strip markup, lowercase, replace non-alphanumeric
runs by single spaces. -/
def normalize_text (text : String) : String :=
  String.mk (regexSub ((stripMarkup text.toList).map lowerChar))

/-- `_tokenize`: split on whitespace, excluding empty tokens. -/
def tokenize (text : String) : List String :=
  ((splitWs text.toList).map String.mk).filter (fun t => t ≠ "")

/-- `_filter_stopwords`: drop stopwords when a stopword set was loaded. -/
def filter_stopwords (pipe : TextPipeline) (tokens : List String) : List String :=
  if pipe.stopword_set.isEmpty then tokens
  else tokens.filter (fun t => !pipe.stopword_set.contains t)

/-- `_stem_tokens`: apply the stemmer when one is enabled. -/
def stem_tokens (pipe : TextPipeline) (tokens : List String) : List String :=
  match pipe.stemmer with
  | none => tokens
  | some f => tokens.map f

/-- `transform`: the full normalization cycle, raw text to tokens. -/
def transform (pipe : TextPipeline) (text : String) : List String :=
  pipe.stem_tokens (pipe.filter_stopwords (tokenize (normalize_text text)))

end TextPipeline

/-! ### `src/documents.py`: Document -/

/-- A `Document`: one indexable unit.  Paths are strings; `metadata` is the
opaque provenance map (keys and values kept as strings). -/
structure Document where
  path : String
  text : String
  metadata : List (String × String) := []
  tokens : List String := []
deriving DecidableEq, Repr

/-! ### `src/indexing.py`: the hashing vectorizer and TfidfIndexer -/

/-- The `HashingVectorizer` configuration: the fixed dimensionality
`n_features` (default `2 ** 20` in the source) and the deterministic
token-hash function.  The concrete hash is scikit-learn's signed
MurmurHash3 (external library code); with `alternate_sign=False` only the
slot `abs(hash(token)) % n_features` matters, so the model abstracts it
as an arbitrary fixed function into the naturals. -/
structure VecConfig where
  n_features : Nat
  hash : String → Nat

/-- The vectorizer's tokenizer, `lambda text: text.split()`. -/
def vectorizerTokenize (text : String) : List String :=
  (splitWs text.toList).map String.mk

/-- The feature vector of a token list: term-frequency counts per hash
slot.  The vectorizer additionally l2-normalizes each row (`norm="l2"`),
which `cosine_similarity` redoes from scratch; since cosine similarity is
invariant under positive scaling of either argument (and a zero row stays
zero under both conventions), rows are kept as raw counts and every score
and comparison below is unchanged. -/
def rawTf (cfg : VecConfig) (tokens : List String) : List Nat :=
  (List.range cfg.n_features).map
    (fun i => (tokens.filter (fun t => cfg.hash t % cfg.n_features = i)).length)

/-- `vectorizer.transform([text])`: tokenize, then count hashed tokens. -/
def vectorizerTransform (cfg : VecConfig) (text : String) : List Nat :=
  rawTf cfg (vectorizerTokenize text)

/-- Dot product of two count vectors. -/
def dotNat (u v : List Nat) : Nat :=
  (List.zipWith (· * ·) u v).sum

/-- Squared euclidean norm of a count vector. -/
def sumSq (u : List Nat) : Nat :=
  dotNat u u

/-- An exact representation of one float cosine-similarity value, as
`sklearn.metrics.pairwise.cosine_similarity` computes it on two
non-negative integer vectors `u`, `v`: the value denoted is
`num / √den` with `num = u·v` and `den = ‖u‖² * ‖v‖²`.  (`Score.toReal`
gives the denotation; Lean's `x / 0 = 0` convention coincides with
sklearn's handling of zero rows, which are left as zero by `normalize`
and hence score `0` against everything.) -/
structure Score where
  num : Nat
  den : Nat
deriving DecidableEq, Repr

namespace Score

/-- The real number this score denotes. -/
noncomputable def toReal (s : Score) : ℝ :=
  (s.num : ℝ) / Real.sqrt (s.den : ℝ)

/-- The float literal `0.0` the source compares against. -/
def zero : Score := ⟨0, 1⟩

/-- The decidable realisation of the float order `toReal s ≤ toReal t`
(proved equivalent in `le_iff_toReal`): compare `num/√den` by
cross-multiplying and squaring, with the zero-denominator cases split
off. -/
def le (s t : Score) : Bool :=
  if s.den = 0 then true
  else if t.den = 0 then decide (s.num = 0)
  else decide (s.num * s.num * t.den ≤ t.num * t.num * s.den)

/-- The decidable realisation of the strict float order. -/
def lt (s t : Score) : Bool :=
  ! le t s

end Score

namespace Score

theorem toReal_nonneg (s : Score) : 0 ≤ s.toReal :=
  div_nonneg (Nat.cast_nonneg _) (Real.sqrt_nonneg _)

theorem toReal_zero : Score.zero.toReal = 0 := by
  simp [toReal, Score.zero]

/-- The decidable comparison `Score.le` realises the order of the real
denotations. -/
theorem le_iff_toReal (s t : Score) : Score.le s t = true ↔ s.toReal ≤ t.toReal := by
  rcases s with ⟨n1, d1⟩
  rcases t with ⟨n2, d2⟩
  simp only [Score.le, toReal]
  by_cases h1 : d1 = 0
  · subst h1
    simp only [eq_self_iff_true, if_true, true_iff, Nat.cast_zero, Real.sqrt_zero, div_zero]
    positivity
  · rw [if_neg h1]
    have hd1 : (0:ℝ) < Real.sqrt (d1:ℝ) :=
      Real.sqrt_pos.mpr (by exact_mod_cast Nat.pos_of_ne_zero h1)
    by_cases h2 : d2 = 0
    · subst h2
      rw [if_pos rfl]
      simp only [Nat.cast_zero, Real.sqrt_zero, div_zero, decide_eq_true_eq]
      constructor
      · rintro rfl
        simp
      · intro h
        have hnn : (0:ℝ) ≤ (n1:ℝ) / Real.sqrt (d1:ℝ) := by positivity
        rcases div_eq_zero_iff.mp (le_antisymm h hnn) with h0 | h0
        · exact_mod_cast h0
        · exact absurd h0 (ne_of_gt hd1)
    · rw [if_neg h2]
      have hd2 : (0:ℝ) < Real.sqrt (d2:ℝ) :=
        Real.sqrt_pos.mpr (by exact_mod_cast Nat.pos_of_ne_zero h2)
      have s1 : Real.sqrt (d1:ℝ) * Real.sqrt (d1:ℝ) = (d1:ℝ) :=
        Real.mul_self_sqrt (by positivity)
      have s2 : Real.sqrt (d2:ℝ) * Real.sqrt (d2:ℝ) = (d2:ℝ) :=
        Real.mul_self_sqrt (by positivity)
      rw [decide_eq_true_eq, div_le_div_iff₀ hd1 hd2]
      constructor
      · intro h
        have hc : ((n1:ℝ)) * (n1:ℝ) * (d2:ℝ) ≤ (n2:ℝ) * (n2:ℝ) * (d1:ℝ) := by
          exact_mod_cast h
        have h' : ((n1:ℝ) * Real.sqrt (d2:ℝ)) * ((n1:ℝ) * Real.sqrt (d2:ℝ)) ≤
            ((n2:ℝ) * Real.sqrt (d1:ℝ)) * ((n2:ℝ) * Real.sqrt (d1:ℝ)) := by
          nlinarith [s1, s2, hc]
        exact nonneg_le_nonneg_of_sq_le_sq (by positivity) h'
      · intro h
        have h' := mul_self_le_mul_self
          (by positivity : (0:ℝ) ≤ (n1:ℝ) * Real.sqrt (d2:ℝ)) h
        have : ((n1:ℝ)) * (n1:ℝ) * (d2:ℝ) ≤ (n2:ℝ) * (n2:ℝ) * (d1:ℝ) := by
          nlinarith [s1, s2, h']
        exact_mod_cast this

/-- The strict comparison `Score.lt` realises the strict real order. -/
theorem lt_iff_toReal (s t : Score) : Score.lt s t = true ↔ s.toReal < t.toReal := by
  simp only [Score.lt, Bool.not_eq_true']
  constructor
  · intro h
    by_contra hc
    push_neg at hc
    rw [(le_iff_toReal t s).mpr hc] at h
    cases h
  · intro h
    cases hb : Score.le t s with
    | false => rfl
    | true => exact absurd ((le_iff_toReal t s).mp hb) (not_le.mpr h)

/-- A score `≤ 0.0` iff its denotation is not positive. -/
theorem le_zero_iff (s : Score) : Score.le s Score.zero = true ↔ s.toReal ≤ 0 := by
  rw [le_iff_toReal, toReal_zero]

theorem le_total' (s t : Score) : Score.le s t = true ∨ Score.le t s = true := by
  rcases le_total s.toReal t.toReal with h | h
  · exact Or.inl ((le_iff_toReal s t).mpr h)
  · exact Or.inr ((le_iff_toReal t s).mpr h)

theorem le_trans' {s t u : Score} (h1 : Score.le s t = true) (h2 : Score.le t u = true) :
    Score.le s u = true :=
  (le_iff_toReal s u).mpr (le_trans ((le_iff_toReal s t).mp h1) ((le_iff_toReal t u).mp h2))

end Score

/-- The cosine-similarity score of query vector `u` against row `v`. -/
def cosineScore (u v : List Nat) : Score :=
  ⟨dotNat u v, sumSq u * sumSq v⟩

/-- The real cosine similarity of two count vectors, as a formula. -/
noncomputable def cosineSimilarityR (u v : List Nat) : ℝ :=
  (dotNat u v : ℝ) / Real.sqrt ((sumSq u : ℝ) * (sumSq v : ℝ))

theorem dotNat_nil_right : ∀ u : List Nat, dotNat u [] = 0
  | [] => rfl
  | _ :: _ => rfl

theorem dotNat_cons (a b : Nat) (us vs : List Nat) :
    dotNat (a :: us) (b :: vs) = a * b + dotNat us vs := by
  simp [dotNat]

theorem sumSq_cons (a : Nat) (us : List Nat) : sumSq (a :: us) = a * a + sumSq us := by
  simp [sumSq, dotNat]

/-- Cauchy–Schwarz for term-count vectors. -/
theorem dotNat_sq_le : ∀ u v : List Nat, dotNat u v * dotNat u v ≤ sumSq u * sumSq v
  | [], v => by simp [dotNat, sumSq]
  | _ :: _, [] => by simp [dotNat_nil_right]
  | a :: us, b :: vs => by
    have ih := dotNat_sq_le us vs
    rw [dotNat_cons, sumSq_cons, sumSq_cons]
    rcases Nat.eq_zero_or_pos (sumSq us) with h0 | h0
    · have hd : dotNat us vs = 0 := by
        have := ih
        rw [h0, Nat.zero_mul, Nat.le_zero, Nat.mul_eq_zero] at this
        tauto
      rw [hd, h0]
      nlinarith
    · zify at ih ⊢
      have hSu : (0:ℤ) < (sumSq us : ℤ) := by exact_mod_cast h0
      have hA : (0:ℤ) ≤ ((sumSq us : ℤ) * (sumSq vs : ℤ) -
          (dotNat us vs : ℤ) * (dotNat us vs : ℤ)) * ((a:ℤ) * a) :=
        mul_nonneg (by linarith) (by positivity)
      have hB : (0:ℤ) ≤ ((sumSq us : ℤ) * (sumSq vs : ℤ) -
          (dotNat us vs : ℤ) * (dotNat us vs : ℤ)) * (sumSq us : ℤ) :=
        mul_nonneg (by linarith) (by linarith)
      nlinarith [hA, hB, hSu,
        sq_nonneg ((a:ℤ) * (dotNat us vs : ℤ) - (b:ℤ) * (sumSq us : ℤ))]

theorem cosineScore_toReal_le_one (u v : List Nat) : (cosineScore u v).toReal ≤ 1 := by
  rw [cosineScore, Score.toReal]
  rcases Nat.eq_zero_or_pos (sumSq u * sumSq v) with h0 | h0
  · simp [h0]
  · have hpos : (0:ℝ) < Real.sqrt ((sumSq u * sumSq v : Nat) : ℝ) :=
      Real.sqrt_pos.mpr (by exact_mod_cast h0)
    rw [div_le_one hpos]
    rw [show ((dotNat u v : Nat) : ℝ) = ((dotNat u v : Nat) : ℝ) from rfl]
    rw [Real.le_sqrt (by positivity) (by positivity)]
    have := dotNat_sq_le u v
    rw [sq]
    exact_mod_cast this

/-- The denotation of `cosineScore` is the textbook cosine formula. -/
theorem cosineScore_toReal (u v : List Nat) :
    (cosineScore u v).toReal = cosineSimilarityR u v := by
  rw [cosineScore, Score.toReal, cosineSimilarityR]
  norm_num

/-- The state of a `TfidfIndexer`: the optional row-stacked corpus matrix
and the parallel document list. -/
structure TfidfIndexer where
  matrix : Option (List (List Nat)) := none
  doc_index : List Document := []
deriving Repr

/-- Python's stable descending sort by the score component:
`sorted(pairs, key=lambda item: item[1], reverse=True)`.  A stable sort
for a total preorder is extensionally unique, so `List.insertionSort`
with this relation (which keeps the earlier element first on ties, like
Timsort) produces exactly Python's result. -/
def scoreDescOrder {α : Type} (a b : α × Score) : Prop :=
  Score.le b.2 a.2 = true

instance {α : Type} : DecidableRel (@scoreDescOrder α) :=
  fun a b => decEq (Score.le b.2 a.2) true

/-- Python slicing `l[:k]` for an `int` index `k`: the first `k` elements
when `k ≥ 0`, all but the last `-k` elements when `k < 0`. -/
def pySlice {α : Type} (l : List α) (k : Int) : List α :=
  if 0 ≤ k then l.take k.toNat else l.take (l.length - (-k).toNat)

theorem pySlice_sublist {α : Type} (l : List α) (k : Int) : (pySlice l k).Sublist l := by
  unfold pySlice
  split <;> exact List.take_sublist _ _

theorem mem_of_mem_ite_slice {α : Type} {l : List α} {k : Int} {c : Prop} [Decidable c]
    {e : α} (h : e ∈ if c then l else pySlice l k) : e ∈ l := by
  split at h
  · exact h
  · exact (pySlice_sublist _ _).subset h

instance scoreDescOrder_total {α : Type} : IsTotal (α × Score) scoreDescOrder :=
  ⟨fun a b => Score.le_total' b.2 a.2⟩

instance scoreDescOrder_trans {α : Type} : IsTrans (α × Score) scoreDescOrder :=
  ⟨fun _ _ _ h1 h2 => Score.le_trans' h2 h1⟩

/-- `orderedInsert` preserves a pairwise relation `R` when `R` relates the
new element forward to everything present and backward to everything the
insertion point passes over. -/
theorem pairwise_orderedInsert {α : Type} (r : α → α → Prop) [DecidableRel r]
    {R : α → α → Prop} (x : α) (l : List α) (h1 : l.Pairwise R)
    (h2 : ∀ z ∈ l, ¬ r x z → R z x) (h3 : ∀ z ∈ l, R x z) :
    (List.orderedInsert r x l).Pairwise R := by
  induction l with
  | nil => simp
  | cons c cs ih =>
    rw [List.orderedInsert]
    by_cases hr : r x c
    · rw [if_pos hr]
      exact List.Pairwise.cons h3 h1
    · rw [if_neg hr]
      rw [List.pairwise_cons] at h1 ⊢
      constructor
      · intro z hz
        rcases (List.mem_orderedInsert r).mp hz with hz | hz
        · subst hz
          exact h2 c (List.mem_cons_self _ _) hr
        · exact h1.1 z hz
      · exact ih h1.2 (fun z hz hrz => h2 z (List.mem_cons_of_mem _ hz) hrz)
          (fun z hz => h3 z (List.mem_cons_of_mem _ hz))

/-- Stability of `insertionSort`: any pairwise relation `Q` on the input
survives sorting for pairs the sort considers tied (related both ways by
`r`).  With `Q` = "appears earlier", this is exactly the stability of
Python's `sorted`. -/
theorem pairwise_insertionSort_of_pairwise {α : Type} (r : α → α → Prop) [DecidableRel r]
    {Q : α → α → Prop} (l : List α) (h : l.Pairwise Q) :
    (List.insertionSort r l).Pairwise (fun a b => r a b → r b a → Q a b) := by
  induction l with
  | nil => simp
  | cons x xs ih =>
    rw [List.insertionSort]
    rw [List.pairwise_cons] at h
    refine pairwise_orderedInsert r x _ (ih h.2) ?_ ?_
    · intro z _ hrz
      exact fun hzx hxz => absurd hxz hrz
    · intro z hz
      have hz' : z ∈ xs := (List.perm_insertionSort r xs).mem_iff.mp hz
      exact fun _ _ => h.1 z hz'

namespace TfidfIndexer

/-- `partial_fit`: join each document's tokens into a text, keeping only
documents with a non-empty token list; if nothing remains, return
unchanged; otherwise stack the new rows under the matrix and extend
`doc_index` with the whole chunk (the source extends with `docs_chunk`,
not with the filtered list). -/
def partial_fit (cfg : VecConfig) (st : TfidfIndexer) (docs_chunk : List Document) :
    TfidfIndexer :=
  let token_texts :=
    ((docs_chunk.filter (fun d => !d.tokens.isEmpty)).map (fun d => joinTokens d.tokens))
  if token_texts.isEmpty then st
  else
    let m := token_texts.map (vectorizerTransform cfg)
    { matrix := some (match st.matrix with
        | none => m
        | some old => old ++ m),
      doc_index := st.doc_index ++ docs_chunk }

/-- `query`: empty result on an empty index; otherwise vectorize the
joined query tokens, score every row by cosine similarity, pair the
scores with `doc_index` (`zip` truncates to the shorter list) and sort by
score descending (stable).  `top_k=None` or `top_k ≥ len(ranked)` returns
the full ranking; otherwise `ranked[:top_k]`. -/
def query (cfg : VecConfig) (st : TfidfIndexer) (tokens : List String)
    (top_k : Option Int) : List (Document × Score) :=
  match st.matrix with
  | none => []
  | some m =>
    if st.doc_index.isEmpty then []
    else
      let query_vector := vectorizerTransform cfg (joinTokens tokens)
      let similarities := m.map (fun row => cosineScore query_vector row)
      let ranked := List.insertionSort scoreDescOrder (st.doc_index.zip similarities)
      match top_k with
      | none => ranked
      | some k => if k ≥ (ranked.length : Int) then ranked else pySlice ranked k

/-- A call `indexer.query(tokens)` with `top_k` left unspecified: the
source's default is `top_k = 5`. -/
def queryDefault (cfg : VecConfig) (st : TfidfIndexer) (tokens : List String) :
    List (Document × Score) :=
  query cfg st tokens (some 5)

end TfidfIndexer

/-- The ranked list `query` builds on a non-empty index, before `top_k`
truncation. -/
theorem query_eq_ranked (cfg : VecConfig) (st : TfidfIndexer) (tokens : List String)
    (m : List (List Nat)) (hm : st.matrix = some m) (hd : st.doc_index.isEmpty = false) :
    st.query cfg tokens none =
      List.insertionSort scoreDescOrder
        (st.doc_index.zip
          (m.map (cosineScore (vectorizerTransform cfg (joinTokens tokens))))) := by
  unfold TfidfIndexer.query
  rw [hm]
  simp [hd]

/-- Every pair `query` returns comes from zipping `doc_index` with the
cosine scores of the stored rows. -/
theorem mem_query (cfg : VecConfig) (st : TfidfIndexer) (tokens : List String)
    (top_k : Option Int) {e : Document × Score} (h : e ∈ st.query cfg tokens top_k) :
    ∃ m, st.matrix = some m ∧
      e ∈ st.doc_index.zip
        (m.map (cosineScore (vectorizerTransform cfg (joinTokens tokens)))) := by
  unfold TfidfIndexer.query at h
  cases hm : st.matrix with
  | none => rw [hm] at h; simp at h
  | some m =>
    rw [hm] at h
    dsimp only at h
    by_cases hd : st.doc_index.isEmpty
    · simp [hd] at h
    · rw [if_neg hd] at h
      refine ⟨m, rfl, ?_⟩
      cases top_k with
      | none => exact (List.perm_insertionSort _ _).mem_iff.mp h
      | some k =>
        exact (List.perm_insertionSort _ _).mem_iff.mp (mem_of_mem_ite_slice h)

/-- The score of any zipped pair is a `cosineScore` of the query vector
against some row. -/
theorem score_of_mem_zip {docs : List Document} {rows : List (List Nat)} {qv : List Nat}
    {e : Document × Score} (h : e ∈ docs.zip (rows.map (cosineScore qv))) :
    ∃ row, e.2 = cosineScore qv row := by
  rcases e with ⟨d, s⟩
  have hs : s ∈ rows.map (cosineScore qv) := (List.of_mem_zip h).2
  rcases List.mem_map.mp hs with ⟨row, _, hrow⟩
  exact ⟨row, hrow.symm⟩

/-- On an aligned non-empty index, the full ranking pairs every indexed
document with a score. -/
theorem query_none_length (cfg : VecConfig) (st : TfidfIndexer) (tokens : List String)
    (m : List (List Nat)) (hm : st.matrix = some m)
    (hlen : m.length = st.doc_index.length) (hd : st.doc_index.isEmpty = false) :
    (st.query cfg tokens none).length = st.doc_index.length := by
  rw [query_eq_ranked cfg st tokens m hm hd]
  rw [(List.perm_insertionSort _ _).length_eq, List.length_zip, List.length_map, hlen,
    min_self]

/-- On an aligned index, `query` with an explicit non-negative `top_k`
returns `min top_k (corpus size)` pairs. -/
theorem query_some_length (cfg : VecConfig) (st : TfidfIndexer) (tokens : List String)
    (m : List (List Nat)) (k : Int) (hm : st.matrix = some m)
    (hlen : m.length = st.doc_index.length) (hk : 0 ≤ k) :
    (st.query cfg tokens (some k)).length = min k.toNat st.doc_index.length := by
  unfold TfidfIndexer.query
  rw [hm]
  dsimp only
  by_cases hd : st.doc_index.isEmpty
  · rw [if_pos hd]
    rw [List.isEmpty_iff] at hd
    simp [hd]
  · rw [if_neg hd]
    have hrank : (List.insertionSort scoreDescOrder
        (st.doc_index.zip
          (m.map (cosineScore (vectorizerTransform cfg (joinTokens tokens)))))).length =
        st.doc_index.length := by
      rw [(List.perm_insertionSort _ _).length_eq, List.length_zip, List.length_map, hlen,
        min_self]
    split
    · rename_i hge
      rw [hrank] at hge ⊢
      have : st.doc_index.length ≤ k.toNat := by omega
      omega
    · rename_i hlt
      rw [hrank] at hlt
      rw [pySlice, if_pos hk, List.length_take, hrank]

/-! ### `src/source_finder.py`: SourceFinder -/

/-- A file-level match: path and best similarity score. -/
structure SourceMatch where
  path : String
  score : Score
deriving DecidableEq, Repr

/-- A matching fragment inside a candidate file. -/
structure SourcePosition where
  path : String
  index : Nat
  snippet : String
  score : Score
  label : String
deriving DecidableEq, Repr

/-- `best.get(path, default)` on a Python dict modelled as an
insertion-ordered association list. -/
def dictGet (d : List (String × Score)) (p : String) (dflt : Score) : Score :=
  match d.find? (fun e => e.1 = p) with
  | some e => e.2
  | none => dflt

/-- `best[path] = score` on an insertion-ordered dict: overwrite in place
when the key exists, append otherwise. -/
def dictSet (d : List (String × Score)) (p : String) (v : Score) : List (String × Score) :=
  if d.any (fun e => e.1 = p) then d.map (fun e => if e.1 = p then (p, v) else e)
  else d ++ [(p, v)]

theorem Score.le_refl' (s : Score) : Score.le s s = true :=
  (Score.le_iff_toReal s s).mpr le_rfl

theorem Score.le_of_lt' {s t : Score} (h : Score.lt s t = true) : Score.le s t = true :=
  (Score.le_iff_toReal s t).mpr (le_of_lt ((Score.lt_iff_toReal s t).mp h))

theorem Score.le_of_not_lt {s t : Score} (h : Score.lt s t = false) :
    Score.le t s = true := by
  rw [Score.lt, Bool.not_eq_false'] at h
  exact h

/-- A non-positive score is below any score that is not non-positive. -/
theorem Score.le_of_nonpos_of_pos {s t : Score} (hs : Score.le s Score.zero = true)
    (ht : Score.le t Score.zero = false) : Score.le s t = true := by
  rw [Score.le_iff_toReal]
  have h1 : s.toReal ≤ 0 := (Score.le_zero_iff s).mp hs
  have h2 : ¬ t.toReal ≤ 0 := fun hc => by
    rw [(Score.le_zero_iff t).mpr hc] at ht
    cases ht
  linarith [not_le.mp h2]

/-- `0.0 < s` iff `s` is not `≤ 0.0`. -/
theorem Score.lt_zero_iff (s : Score) :
    Score.lt Score.zero s = true ↔ Score.le s Score.zero = false := by
  rw [Score.lt, Bool.not_eq_true']

theorem dictGet_of_not_mem {d : List (String × Score)} {p : String} {dflt : Score}
    (h : p ∉ d.map Prod.fst) : dictGet d p dflt = dflt := by
  unfold dictGet
  rw [List.find?_eq_none.mpr]
  intro e he
  simp only [decide_eq_true_eq]
  intro hep
  exact h (List.mem_map.mpr ⟨e, he, hep⟩)

/-- With pairwise-distinct keys, every stored pair is what `get` finds. -/
theorem dictGet_of_mem {d : List (String × Score)} {p : String} {s : Score} {dflt : Score}
    (hnd : (d.map Prod.fst).Nodup) (h : (p, s) ∈ d) : dictGet d p dflt = s := by
  induction d with
  | nil => cases h
  | cons c cs ih =>
    rw [List.map_cons, List.nodup_cons] at hnd
    rcases List.mem_cons.mp h with h | h
    · subst h
      unfold dictGet
      simp [List.find?_cons_of_pos]
    · have hcp : c.1 ≠ p := by
        intro hc
        exact hnd.1 (hc ▸ List.mem_map.mpr ⟨(p, s), h, rfl⟩)
      unfold dictGet at ih ⊢
      rw [List.find?_cons_of_neg _ (by simpa using hcp)]
      exact ih hnd.2 h

/-- With pairwise-distinct keys, a key determines its stored value. -/
theorem dict_value_unique {d : List (String × Score)} {p : String} {s s' : Score}
    (hnd : (d.map Prod.fst).Nodup) (h : (p, s) ∈ d) (h' : (p, s') ∈ d) : s = s' := by
  have h1 : dictGet d p Score.zero = s := dictGet_of_mem hnd h
  have h2 : dictGet d p Score.zero = s' := dictGet_of_mem hnd h'
  rw [h1] at h2
  exact h2

theorem any_fst_eq (d : List (String × Score)) (p : String) :
    (d.any (fun e => e.1 = p)) = true ↔ p ∈ d.map Prod.fst := by
  simp [List.any_eq_true]

theorem dictSet_of_not_mem {d : List (String × Score)} {p : String} {v : Score}
    (h : p ∉ d.map Prod.fst) : dictSet d p v = d ++ [(p, v)] := by
  unfold dictSet
  rw [if_neg]
  intro hc
  exact h ((any_fst_eq d p).mp hc)

theorem dictSet_of_mem {d : List (String × Score)} {p : String} {v : Score}
    (h : p ∈ d.map Prod.fst) :
    dictSet d p v = d.map (fun e => if e.1 = p then (p, v) else e) := by
  unfold dictSet
  rw [if_pos ((any_fst_eq d p).mpr h)]

theorem fst_overwrite (p : String) (v : Score) (e : String × Score) :
    (if e.1 = p then (p, v) else e).1 = e.1 := by
  split
  · rename_i h
    rw [h]
  · rfl

theorem map_fst_dictSet_of_mem {d : List (String × Score)} {p : String} {v : Score}
    (h : p ∈ d.map Prod.fst) : (dictSet d p v).map Prod.fst = d.map Prod.fst := by
  rw [dictSet_of_mem h, List.map_map]
  congr 1
  funext e
  exact fst_overwrite p v e

/-- Membership in the overwritten dict. -/
theorem mem_dictSet_overwrite {d : List (String × Score)} {p q : String} {v s : Score}
    (hmem : (q, s) ∈ d.map (fun e => if e.1 = p then (p, v) else e)) :
    (q = p ∧ s = v) ∨ ((q, s) ∈ d ∧ q ≠ p) := by
  rcases List.mem_map.mp hmem with ⟨e, he, heq⟩
  by_cases hep : e.1 = p
  · rw [if_pos hep] at heq
    injection heq with h1 h2
    exact Or.inl ⟨h1.symm, h2.symm⟩
  · rw [if_neg hep] at heq
    subst heq
    exact Or.inr ⟨he, hep⟩

/-! #### The first positive entry of a path in a scored list -/

/-- Is `e` an entry of path `p` with a strictly positive score? -/
def posEntry (p : String) (e : Document × Score) : Bool :=
  decide (e.1.path = p) && Score.lt Score.zero e.2

/-- The index of the first strictly positive entry of path `p` in a
scored list — the moment `_aggregate_best_scores` inserts `p` into its
dict (the list's length when there is none). -/
def firstPosIdx (l : List (Document × Score)) (p : String) : Nat :=
  l.findIdx (posEntry p)

theorem firstPosIdx_append_of_lt {l1 l2 : List (Document × Score)} {p : String}
    (h : firstPosIdx l1 p < l1.length) : firstPosIdx (l1 ++ l2) p = firstPosIdx l1 p := by
  unfold firstPosIdx at h ⊢
  rw [List.findIdx_append, if_pos h]

theorem firstPosIdx_append_singleton {l : List (Document × Score)}
    {e : Document × Score} {p : String} (hnone : ∀ x ∈ l, posEntry p x = false)
    (he : posEntry p e = true) : firstPosIdx (l ++ [e]) p = l.length := by
  unfold firstPosIdx
  have h1 : List.findIdx (posEntry p) l = l.length := List.findIdx_eq_length_of_false hnone
  rw [List.findIdx_append, h1, if_neg (lt_irrefl _)]
  have h2 : List.findIdx (posEntry p) [e] = 0 := by
    simp [List.findIdx_cons, he]
  omega

/-- One step of `_aggregate_best_scores`' loop body. -/
def aggregateStep (best : List (String × Score)) (e : Document × Score) :
    List (String × Score) :=
  if Score.le e.2 Score.zero then best
  else if Score.lt (dictGet best e.1.path Score.zero) e.2 then dictSet best e.1.path e.2
  else best

/-- `_aggregate_best_scores`: keep the best strictly positive score per
path, skipping scores `≤ 0.0`. -/
def aggregate_best_scores (scored : List (Document × Score)) : List (String × Score) :=
  scored.foldl aggregateStep []

/-- The loop invariant of `_aggregate_best_scores`: after the entries of
`seen` have been folded into the dict `best`,
* every stored pair `(p, s)` is a strictly positive score of some seen
  entry of path `p` and dominates every seen score of `p`,
* every seen entry with strictly positive score has its path stored,
* keys are pairwise distinct, and
* keys are ordered by (and witnessed at) the first strictly positive
  occurrence of their path in `seen`. -/
structure AggInv (seen : List (Document × Score)) (best : List (String × Score)) :
    Prop where
  max_mem : ∀ p s, (p, s) ∈ best →
    (∃ e ∈ seen, e.1.path = p ∧ e.2 = s) ∧ Score.le s Score.zero = false ∧
      ∀ e ∈ seen, e.1.path = p → Score.le e.2 s = true
  complete : ∀ e ∈ seen, Score.le e.2 Score.zero = false → e.1.path ∈ best.map Prod.fst
  nodupKeys : (best.map Prod.fst).Nodup
  ordered : best.Pairwise (fun a b => firstPosIdx seen a.1 < firstPosIdx seen b.1)
  inseen : ∀ p ∈ best.map Prod.fst, firstPosIdx seen p < seen.length

/-- The key order of the dict is stable under extending the seen list. -/
theorem aggInv_ordered_extend {seen : List (Document × Score)}
    {best : List (String × Score)}
    (ord : best.Pairwise (fun a b => firstPosIdx seen a.1 < firstPosIdx seen b.1))
    (hsn : ∀ p ∈ best.map Prod.fst, firstPosIdx seen p < seen.length)
    (more : List (Document × Score)) :
    best.Pairwise
      (fun a b => firstPosIdx (seen ++ more) a.1 < firstPosIdx (seen ++ more) b.1) := by
  refine List.Pairwise.imp_of_mem ?_ ord
  intro a b ha hb hab
  rw [firstPosIdx_append_of_lt (hsn a.1 (List.mem_map_of_mem _ ha)),
    firstPosIdx_append_of_lt (hsn b.1 (List.mem_map_of_mem _ hb))]
  exact hab

/-- `aggregateStep` preserves the loop invariant. -/
theorem aggInv_step {seen : List (Document × Score)} {best : List (String × Score)}
    (inv : AggInv seen best) (e : Document × Score) :
    AggInv (seen ++ [e]) (aggregateStep best e) := by
  unfold aggregateStep
  by_cases hpos : Score.le e.2 Score.zero = true
  · rw [if_pos hpos]
    refine ⟨?_, ?_, inv.nodupKeys, aggInv_ordered_extend inv.ordered inv.inseen [e], ?_⟩
    · intro p s hps
      obtain ⟨hex, hspos, hmax⟩ := inv.max_mem p s hps
      obtain ⟨x, hx, hx2⟩ := hex
      refine ⟨⟨x, List.mem_append_left _ hx, hx2⟩, hspos, ?_⟩
      intro y hy hyp
      rcases List.mem_append.mp hy with hy | hy
      · exact hmax y hy hyp
      · rw [List.mem_singleton.mp hy]
        exact Score.le_of_nonpos_of_pos hpos hspos
    · intro x hx hxpos
      rcases List.mem_append.mp hx with hx | hx
      · exact inv.complete x hx hxpos
      · rw [List.mem_singleton.mp hx] at hxpos
        rw [hpos] at hxpos
        cases hxpos
    · intro p hp
      have h := inv.inseen p hp
      rw [firstPosIdx_append_of_lt h, List.length_append]
      omega
  · rw [if_neg hpos]
    rw [Bool.not_eq_true] at hpos
    by_cases hkey : e.1.path ∈ best.map Prod.fst
    · obtain ⟨entry, hentry, hfst⟩ := List.mem_map.mp hkey
      have hsold : (e.1.path, entry.2) ∈ best := by
        have heq : entry = (e.1.path, entry.2) := by
          cases entry
          simp only at hfst
          rw [hfst]
        rw [← heq]
        exact hentry
      have hget : dictGet best e.1.path Score.zero = entry.2 :=
        dictGet_of_mem inv.nodupKeys hsold
      rw [hget]
      by_cases hlt : Score.lt entry.2 e.2 = true
      · rw [if_pos hlt]
        refine ⟨?_, ?_, ?_, ?_, ?_⟩
        · intro p s hps
          rw [dictSet_of_mem hkey] at hps
          rcases mem_dictSet_overwrite hps with ⟨hp, hs⟩ | ⟨hmem, hne⟩
          · subst hp
            subst hs
            refine ⟨⟨e, List.mem_append_right _ (List.mem_singleton_self e), rfl, rfl⟩,
              hpos, ?_⟩
            intro y hy hyp
            rcases List.mem_append.mp hy with hy | hy
            · exact Score.le_trans' ((inv.max_mem _ _ hsold).2.2 y hy hyp)
                (Score.le_of_lt' hlt)
            · rw [List.mem_singleton.mp hy]
              exact Score.le_refl' e.2
          · obtain ⟨hex, hspos, hmax⟩ := inv.max_mem p s hmem
            obtain ⟨x, hx, hx2⟩ := hex
            refine ⟨⟨x, List.mem_append_left _ hx, hx2⟩, hspos, ?_⟩
            intro y hy hyp
            rcases List.mem_append.mp hy with hy | hy
            · exact hmax y hy hyp
            · rw [List.mem_singleton.mp hy] at hyp
              exact absurd hyp.symm hne
        · intro x hx hxpos
          rw [map_fst_dictSet_of_mem hkey]
          rcases List.mem_append.mp hx with hx | hx
          · exact inv.complete x hx hxpos
          · rw [List.mem_singleton.mp hx]
            exact hkey
        · rw [map_fst_dictSet_of_mem hkey]
          exact inv.nodupKeys
        · rw [dictSet_of_mem hkey, List.pairwise_map]
          refine List.Pairwise.imp ?_
            (aggInv_ordered_extend inv.ordered inv.inseen [e])
          intro a b hab
          rw [fst_overwrite, fst_overwrite]
          exact hab
        · intro p hp
          rw [map_fst_dictSet_of_mem hkey] at hp
          have h := inv.inseen p hp
          rw [firstPosIdx_append_of_lt h, List.length_append]
          omega
      · rw [if_neg hlt]
        have hle : Score.le e.2 entry.2 = true :=
          Score.le_of_not_lt (Bool.of_not_eq_true hlt)
        refine ⟨?_, ?_, inv.nodupKeys,
          aggInv_ordered_extend inv.ordered inv.inseen [e], ?_⟩
        · intro p s hps
          obtain ⟨hex, hspos, hmax⟩ := inv.max_mem p s hps
          obtain ⟨x, hx, hx2⟩ := hex
          refine ⟨⟨x, List.mem_append_left _ hx, hx2⟩, hspos, ?_⟩
          intro y hy hyp
          rcases List.mem_append.mp hy with hy | hy
          · exact hmax y hy hyp
          · rw [List.mem_singleton.mp hy] at hyp ⊢
            have hs : s = entry.2 := by
              apply dict_value_unique inv.nodupKeys hps
              rw [← hyp]
              exact hsold
            rw [hs]
            exact hle
        · intro x hx hxpos
          rcases List.mem_append.mp hx with hx | hx
          · exact inv.complete x hx hxpos
          · rw [List.mem_singleton.mp hx]
            exact hkey
        · intro p hp
          have h := inv.inseen p hp
          rw [firstPosIdx_append_of_lt h, List.length_append]
          omega
    · have hget : dictGet best e.1.path Score.zero = Score.zero :=
        dictGet_of_not_mem hkey
      rw [hget, if_pos ((Score.lt_zero_iff e.2).mpr hpos), dictSet_of_not_mem hkey]
      have hnone : ∀ x ∈ seen, posEntry e.1.path x = false := by
        intro x hx
        by_contra hc
        rw [Bool.not_eq_false, posEntry, Bool.and_eq_true, decide_eq_true_eq] at hc
        exact hkey (hc.1 ▸ inv.complete x hx ((Score.lt_zero_iff x.2).mp hc.2))
      have hself : posEntry e.1.path e = true := by
        rw [posEntry, Bool.and_eq_true, decide_eq_true_eq]
        exact ⟨rfl, (Score.lt_zero_iff e.2).mpr hpos⟩
      have hnew : firstPosIdx (seen ++ [e]) e.1.path = seen.length :=
        firstPosIdx_append_singleton hnone hself
      refine ⟨?_, ?_, ?_, ?_, ?_⟩
      · intro p s hps
        rcases List.mem_append.mp hps with hps | hps
        · obtain ⟨hex, hspos, hmax⟩ := inv.max_mem p s hps
          obtain ⟨x, hx, hx2⟩ := hex
          have hpne : p ≠ e.1.path := by
            intro hc
            exact hkey (hc ▸ List.mem_map.mpr ⟨(p, s), hps, rfl⟩)
          refine ⟨⟨x, List.mem_append_left _ hx, hx2⟩, hspos, ?_⟩
          intro y hy hyp
          rcases List.mem_append.mp hy with hy | hy
          · exact hmax y hy hyp
          · rw [List.mem_singleton.mp hy] at hyp
            exact absurd hyp (hpne ∘ Eq.symm)
        · have heq := List.mem_singleton.mp hps
          injection heq with hp hs
          subst hp
          subst hs
          refine ⟨⟨e, List.mem_append_right _ (List.mem_singleton_self e), rfl, rfl⟩,
            hpos, ?_⟩
          intro y hy hyp
          rcases List.mem_append.mp hy with hy | hy
          · by_cases hy0 : Score.le y.2 Score.zero = true
            · exact Score.le_of_nonpos_of_pos hy0 hpos
            · rw [Bool.not_eq_true] at hy0
              exact absurd (hyp ▸ inv.complete y hy hy0) hkey
          · rw [List.mem_singleton.mp hy]
            exact Score.le_refl' e.2
      · intro x hx hxpos
        rw [List.map_append]
        rcases List.mem_append.mp hx with hx | hx
        · exact List.mem_append_left _ (inv.complete x hx hxpos)
        · rw [List.mem_singleton.mp hx]
          exact List.mem_append_right _ (by simp)
      · rw [List.map_append]
        rw [List.nodup_append]
        refine ⟨inv.nodupKeys, by simp, ?_⟩
        intro q hq
        simp only [List.map_cons, List.map_nil, List.mem_singleton]
        intro hc
        exact hkey (hc ▸ hq)
      · rw [List.pairwise_append]
        refine ⟨aggInv_ordered_extend inv.ordered inv.inseen [e], by simp, ?_⟩
        intro a ha b hb
        rw [List.mem_singleton.mp hb]
        have h1 : firstPosIdx (seen ++ [e]) a.1 < seen.length := by
          rw [firstPosIdx_append_of_lt (inv.inseen a.1 (List.mem_map_of_mem _ ha))]
          exact inv.inseen a.1 (List.mem_map_of_mem _ ha)
        rw [hnew]
        exact h1
      · intro p hp
        rw [List.map_append] at hp
        rcases List.mem_append.mp hp with hp | hp
        · have h := inv.inseen p hp
          rw [firstPosIdx_append_of_lt h, List.length_append]
          omega
        · simp only [List.map_cons, List.map_nil, List.mem_singleton] at hp
          rw [hp, hnew]
          simp

theorem aggInv_nil : AggInv [] [] :=
  ⟨fun _ _ h => absurd h (List.not_mem_nil _), fun _ h => absurd h (List.not_mem_nil _),
    List.nodup_nil, List.Pairwise.nil, fun _ h => absurd h (List.not_mem_nil _)⟩

theorem aggInv_foldl : ∀ (l : List (Document × Score)) {seen : List (Document × Score)}
    {best : List (String × Score)}, AggInv seen best →
    AggInv (seen ++ l) (l.foldl aggregateStep best)
  | [], _, _, inv => by simpa using inv
  | e :: rest, seen, best, inv => by
    have h := aggInv_foldl rest (aggInv_step inv e)
    rw [List.append_assoc] at h
    simpa using h

/-- The dict built by `_aggregate_best_scores` satisfies the invariant
with respect to the whole scored list. -/
theorem aggregate_inv (scored : List (Document × Score)) :
    AggInv scored (aggregate_best_scores scored) := by
  have h := aggInv_foldl scored aggInv_nil
  simpa [aggregate_best_scores] using h

/-- `find_sources`: normalize the query; on zero tokens return empty;
otherwise take the full per-unit ranking (`top_k=None`), aggregate to the
best score per path, sort paths by score descending (stable) and truncate
to `top_k`. -/
def find_sources (cfg : VecConfig) (pipe : TextPipeline) (st : TfidfIndexer)
    (query_text : String) (top_k : Int) : List SourceMatch :=
  let tokens := pipe.transform query_text
  if tokens.isEmpty then []
  else
    let scored_documents := st.query cfg tokens none
    let best_scores := aggregate_best_scores scored_documents
    let ranked_paths := pySlice (List.insertionSort scoreDescOrder best_scores) top_k
    ranked_paths.map (fun e => { path := e.1, score := e.2 })

/-- The last component of a path (after the final `/`). -/
def lastComponent (cs : List Char) : List Char :=
  (cs.reverse.takeWhile (fun c => c ≠ '/')).reverse

/-- `pathlib.Path(p).suffix`: the extension from the last dot of the
final component, empty for dotless or leading-dot-only names. -/
def pathSuffix (p : String) : String :=
  let name := lastComponent p.toList
  if name.contains '.' then
    let ext := (name.reverse.takeWhile (fun c => c ≠ '.')).reverse
    if name.length = ext.length + 1 then "" else String.mk ('.' :: ext)
  else ""

/-- `match.path.suffix.lower() == ".docx"`. -/
def isDocxPath (p : String) : Bool :=
  String.mk ((pathSuffix p).toList.map lowerChar) = ".docx"

/-- Python `str.splitlines()` restricted to `\n` / `\r\n` separators: cut
at each `\n`, drop a final empty piece, strip one trailing `\r` from each
line. -/
def pySplitlines (s : String) : List String :=
  let parts := s.splitOn "\x0a"
  let parts := if parts.getLast? = some "" then parts.dropLast else parts
  parts.map (fun line => if line.endsWith "\x0d" then line.dropRight 1 else line)

/-- `_truncate`: texts within the limit pass unchanged; longer texts are
cut to the first `limit` characters (Python slice semantics for the `int`
limit), right-stripped, and given a trailing ellipsis marker. -/
def truncate (text : String) (limit : Int) : String :=
  if (text.length : Int) ≤ limit then text
  else pyRstrip (String.mk (pySlice text.toList limit)) ++ "..."

/-- `_matches_query`: does the fragment share at least one normalized
token with the query token set? -/
def matches_query (pipe : TextPipeline) (text : String) (query_tokens : List String) :
    Bool :=
  (pipe.transform text).any (fun t => query_tokens.contains t)

/-- The shared loop of `_scan_text` and `_scan_docx`: walk the file's
units (lines or paragraphs) with their 1-based index, stop once
`max_positions_per_file` positions have been collected, skip blank units,
and emit a position for each unit that intersects the query tokens.
`count` is `len(positions)` so far. -/
def scanUnits (pipe : TextPipeline) (m : SourceMatch) (query_tokens : List String)
    (max_positions_per_file snippet_len : Int) (label : String) :
    List String → Nat → Nat → List SourcePosition
  | [], _, _ => []
  | unit :: rest, idx, count =>
      if max_positions_per_file ≤ (count : Int) then []
      else
        let snippet := pyStrip unit
        if snippet = "" then
          scanUnits pipe m query_tokens max_positions_per_file snippet_len label
            rest (idx + 1) count
        else if matches_query pipe snippet query_tokens then
          { path := m.path, index := idx, snippet := truncate snippet snippet_len,
            score := m.score, label := label } ::
            scanUnits pipe m query_tokens max_positions_per_file snippet_len label
              rest (idx + 1) (count + 1)
        else
          scanUnits pipe m query_tokens max_positions_per_file snippet_len label
            rest (idx + 1) count

/-- The file contents the scanning phase re-reads, as data: `read_text`
for plain files and the paragraph list `DocxDocument(path).paragraphs`
(external parsing) for `.docx` files. -/
structure FileSystem where
  read_text : String → String
  docx_paragraphs : String → List String

/-- `_scan_text`: line-oriented scan of a plain file. -/
def scan_text (fs : FileSystem) (pipe : TextPipeline) (m : SourceMatch)
    (query_tokens : List String) (max_positions_per_file snippet_len : Int) :
    List SourcePosition :=
  scanUnits pipe m query_tokens max_positions_per_file snippet_len "line"
    (pySplitlines (fs.read_text m.path)) 1 0

/-- `_scan_docx`: paragraph-oriented scan of a DOCX file. -/
def scan_docx (fs : FileSystem) (pipe : TextPipeline) (m : SourceMatch)
    (query_tokens : List String) (max_positions_per_file snippet_len : Int) :
    List SourcePosition :=
  scanUnits pipe m query_tokens max_positions_per_file snippet_len "paragraph"
    (fs.docx_paragraphs m.path) 1 0

/-- `locate_source_positions`: find file-level matches, return empty when
there are none, and otherwise concatenate each matched file's scan
results in match order. -/
def locate_source_positions (cfg : VecConfig) (pipe : TextPipeline) (fs : FileSystem)
    (st : TfidfIndexer) (query_text : String)
    (top_k max_positions_per_file snippet_len : Int) : List SourcePosition :=
  let found := find_sources cfg pipe st query_text top_k
  if found.isEmpty then []
  else
    let query_tokens := pipe.transform query_text
    found.flatMap (fun m =>
      if isDocxPath m.path then
        scan_docx fs pipe m query_tokens max_positions_per_file snippet_len
      else
        scan_text fs pipe m query_tokens max_positions_per_file snippet_len)

/-! ### Properties of `find_sources` -/

theorem pySlice_nil {α : Type} (k : Int) : pySlice ([] : List α) k = [] := by
  unfold pySlice
  split <;> simp

theorem pySlice_length_le {α : Type} (l : List α) (k : Int) (hk : 0 ≤ k) :
    (pySlice l k).length ≤ k.toNat := by
  unfold pySlice
  rw [if_pos hk, List.length_take]
  omega

theorem query_matrix_none (cfg : VecConfig) (st : TfidfIndexer) (tokens : List String)
    (top_k : Option Int) (h : st.matrix = none) : st.query cfg tokens top_k = [] := by
  unfold TfidfIndexer.query
  rw [h]

theorem query_empty_docs (cfg : VecConfig) (st : TfidfIndexer) (tokens : List String)
    (top_k : Option Int) (h : st.doc_index.isEmpty = true) :
    st.query cfg tokens top_k = [] := by
  unfold TfidfIndexer.query
  cases hm : st.matrix
  · rfl
  · dsimp only
    rw [if_pos h]

/-- A dict entry of every match `find_sources` returns. -/
theorem mem_find_sources {cfg : VecConfig} {pipe : TextPipeline} {st : TfidfIndexer}
    {q : String} {k : Int} {sm : SourceMatch} (h : sm ∈ find_sources cfg pipe st q k) :
    (sm.path, sm.score) ∈
      aggregate_best_scores (st.query cfg (pipe.transform q) none) := by
  unfold find_sources at h
  dsimp only at h
  split at h
  · cases h
  · rcases List.mem_map.mp h with ⟨e, he, heq⟩
    have h1 := (pySlice_sublist _ _).subset he
    have h2 := (List.perm_insertionSort _ _).mem_iff.mp h1
    rw [← heq]
    exact h2

/-- No path repeats among the matches `find_sources` returns. -/
theorem find_sources_paths_nodup (cfg : VecConfig) (pipe : TextPipeline)
    (st : TfidfIndexer) (q : String) (k : Int) :
    ((find_sources cfg pipe st q k).map SourceMatch.path).Nodup := by
  unfold find_sources
  dsimp only
  split
  · simp
  · rw [List.map_map]
    have hfst : (SourceMatch.path ∘ fun e : String × Score =>
        { path := e.1, score := e.2 : SourceMatch }) = Prod.fst := rfl
    rw [hfst]
    refine List.Nodup.sublist ((pySlice_sublist _ _).map _) ?_
    have hperm := (List.perm_insertionSort scoreDescOrder
      (aggregate_best_scores
        (st.query cfg (pipe.transform q) none))).map Prod.fst
    exact hperm.symm.nodup (aggregate_inv _).nodupKeys

/-- When every unit scores non-positively, aggregation yields nothing. -/
theorem aggregate_eq_nil_of_nonpos {scored : List (Document × Score)}
    (h : ∀ e ∈ scored, e.2.toReal ≤ 0) : aggregate_best_scores scored = [] := by
  rcases hagg : aggregate_best_scores scored with _ | ⟨⟨p, s⟩, rest⟩
  · rfl
  · exfalso
    have hmem : (p, s) ∈ aggregate_best_scores scored := by
      rw [hagg]
      exact List.mem_cons_self _ _
    obtain ⟨⟨e, he, _, hes⟩, hpos, _⟩ := (aggregate_inv scored).max_mem p s hmem
    have h0 := h e he
    rw [hes] at h0
    rw [(Score.le_zero_iff s).mpr h0] at hpos
    cases hpos

/-- A path used as the filter key picks out at most one block of a
flat-mapped list whose blocks carry pairwise-distinct keys. -/
theorem filter_flatMap_length_le {α : Type} (p : String) (key : α → String) (N : Nat) :
    ∀ (l : List α) (f : α → List SourcePosition),
      (l.map key).Nodup → (∀ a ∈ l, ∀ b ∈ f a, b.path = key a) →
      (∀ a ∈ l, (f a).length ≤ N) →
      ((l.flatMap f).filter (fun pos => pos.path = p)).length ≤ N
  | [], _, _, _, _ => by simp
  | a :: rest, f, hn, hpath, hlen => by
    rw [List.flatMap_cons, List.filter_append, List.length_append]
    rw [List.map_cons, List.nodup_cons] at hn
    have ihrest := filter_flatMap_length_le p key N rest f hn.2
      (fun x hx => hpath x (List.mem_cons_of_mem _ hx))
      (fun x hx => hlen x (List.mem_cons_of_mem _ hx))
    by_cases hap : key a = p
    · have hrest : ((rest.flatMap f).filter (fun pos => pos.path = p)).length = 0 := by
        rw [List.length_eq_zero, List.filter_eq_nil_iff]
        intro b hb
        rcases List.mem_flatMap.mp hb with ⟨x, hx, hbx⟩
        have hbp := hpath x (List.mem_cons_of_mem _ hx) b hbx
        simp only [decide_eq_true_eq]
        intro hc
        apply hn.1
        refine List.mem_map.mpr ⟨x, hx, ?_⟩
        rw [← hbp, hc, ← hap]
      have hfa := List.length_filter_le (fun pos => decide (pos.path = p)) (f a)
      have := hlen a (List.mem_cons_self _ _)
      omega
    · have hfa : ((f a).filter (fun pos => pos.path = p)).length = 0 := by
        rw [List.length_eq_zero, List.filter_eq_nil_iff]
        intro b hb
        rw [hpath a (List.mem_cons_self _ _) b hb]
        simp [hap]
      rw [hfa]
      simpa using ihrest

/-- A duplicate-free list is ordered by `indexOf`. -/
theorem nodup_pairwise_indexOf {l : List String} (h : l.Nodup) :
    l.Pairwise (fun a b => l.indexOf a < l.indexOf b) := by
  rw [List.pairwise_iff_getElem]
  intro i j hi hj hij
  rw [List.indexOf_getElem h i hi, List.indexOf_getElem h j hj]
  exact hij

/-- The cosine similarities of all indexed units of path `p` against a
query's token list, with rows paired to `doc_index` as `query` pairs
them. -/
noncomputable def pathUnitSims (cfg : VecConfig) (docs : List Document)
    (m : List (List Nat)) (tokens : List String) (p : String) : List ℝ :=
  ((docs.zip m).filter (fun e => e.1.path = p)).map
    (fun e => cosineSimilarityR (vectorizerTransform cfg (joinTokens tokens)) e.2)

/-! ### Normalization is a fixed point on its own output -/

/-- A character as it appears inside an already-normalized token: kept by
the cleaning regex and fixed by lowercasing. -/
def goodChar (c : Char) : Bool :=
  keepChar c && decide (lowerChar c = c)

theorem keepChar_of_space {c : Char} (h : isSpaceChar c = true) : keepChar c = false := by
  rw [isSpaceChar] at h
  simp only [Bool.or_eq_true, decide_eq_true_eq] at h
  rcases h with ((((rfl | rfl) | rfl) | rfl) | rfl) | rfl <;> decide

theorem char_toNat_ofNat {n : Nat} (h : n < 0xd800) : (Char.ofNat n).toNat = n := by
  unfold Char.ofNat
  rw [dif_pos (Or.inl h)]
  rfl

theorem char_le_iff_toNat (a b : Char) : a ≤ b ↔ a.toNat ≤ b.toNat := Iff.rfl

/-- Lowercasing is idempotent on the alphabets it handles. -/
theorem lowerChar_idem (c : Char) : lowerChar (lowerChar c) = lowerChar c := by
  have cA : ('A' : Char).toNat = 65 := by decide
  have cZ : ('Z' : Char).toNat = 90 := by decide
  have cAr : ('А' : Char).toNat = 1040 := by decide
  have cYa : ('Я' : Char).toNat = 1071 := by decide
  have cYo : ('Ё' : Char).toNat = 1025 := by decide
  unfold lowerChar
  by_cases hA : ('A' ≤ c && c ≤ 'Z') = true
  · rw [if_pos hA]
    rw [Bool.and_eq_true, decide_eq_true_eq, decide_eq_true_eq,
      char_le_iff_toNat, char_le_iff_toNat] at hA
    have hval : (Char.ofNat (c.toNat + 32)).toNat = c.toNat + 32 :=
      char_toNat_ofNat (by omega)
    have h1 : ¬ (('A' ≤ Char.ofNat (c.toNat + 32) &&
        Char.ofNat (c.toNat + 32) ≤ 'Z') = true) := by
      rw [Bool.and_eq_true, decide_eq_true_eq, decide_eq_true_eq,
        char_le_iff_toNat, char_le_iff_toNat, hval]
      omega
    have h2 : ¬ (('А' ≤ Char.ofNat (c.toNat + 32) &&
        Char.ofNat (c.toNat + 32) ≤ 'Я') = true) := by
      rw [Bool.and_eq_true, decide_eq_true_eq, decide_eq_true_eq,
        char_le_iff_toNat, char_le_iff_toNat, hval]
      omega
    have h3 : ¬ (Char.ofNat (c.toNat + 32) = 'Ё') := by
      intro hc
      have hv : (Char.ofNat (c.toNat + 32)).toNat = ('Ё' : Char).toNat := by rw [hc]
      rw [hval] at hv
      omega
    rw [if_neg h1, if_neg h2, if_neg h3]
  · rw [if_neg hA]
    by_cases hC : ('А' ≤ c && c ≤ 'Я') = true
    · rw [if_pos hC]
      rw [Bool.and_eq_true, decide_eq_true_eq, decide_eq_true_eq,
        char_le_iff_toNat, char_le_iff_toNat] at hC
      have hval : (Char.ofNat (c.toNat + 32)).toNat = c.toNat + 32 :=
        char_toNat_ofNat (by omega)
      have h1 : ¬ (('A' ≤ Char.ofNat (c.toNat + 32) &&
          Char.ofNat (c.toNat + 32) ≤ 'Z') = true) := by
        rw [Bool.and_eq_true, decide_eq_true_eq, decide_eq_true_eq,
          char_le_iff_toNat, char_le_iff_toNat, hval]
        omega
      have h2 : ¬ (('А' ≤ Char.ofNat (c.toNat + 32) &&
          Char.ofNat (c.toNat + 32) ≤ 'Я') = true) := by
        rw [Bool.and_eq_true, decide_eq_true_eq, decide_eq_true_eq,
          char_le_iff_toNat, char_le_iff_toNat, hval]
        omega
      have h3 : ¬ (Char.ofNat (c.toNat + 32) = 'Ё') := by
        intro hc
        have hv : (Char.ofNat (c.toNat + 32)).toNat = ('Ё' : Char).toNat := by rw [hc]
        rw [hval] at hv
        omega
      rw [if_neg h1, if_neg h2, if_neg h3]
    · rw [if_neg hC]
      by_cases hE : c = 'Ё'
      · rw [if_pos hE]
        decide
      · rw [if_neg hE, if_neg hA, if_neg hC, if_neg hE]

/-- Characters `regexSubAux` emits are kept input characters or spaces. -/
theorem mem_regexSubAux : ∀ (b : Bool) (cs : List Char) (c : Char),
    c ∈ regexSubAux b cs → (c ∈ cs ∧ keepChar c = true) ∨ c = ' '
  | _, [], c, h => by simp [regexSubAux] at h
  | b, d :: rest, c, h => by
    unfold regexSubAux at h
    split at h
    · rcases List.mem_cons.mp h with rfl | h
      · rename_i hk
        exact Or.inl ⟨List.mem_cons_self _ _, hk⟩
      · rcases mem_regexSubAux false rest c h with ⟨h1, h2⟩ | h1
        · exact Or.inl ⟨List.mem_cons_of_mem _ h1, h2⟩
        · exact Or.inr h1
    · split at h
      · rcases mem_regexSubAux true rest c h with ⟨h1, h2⟩ | h1
        · exact Or.inl ⟨List.mem_cons_of_mem _ h1, h2⟩
        · exact Or.inr h1
      · rcases List.mem_cons.mp h with rfl | h
        · exact Or.inr rfl
        · rcases mem_regexSubAux true rest c h with ⟨h1, h2⟩ | h1
          · exact Or.inl ⟨List.mem_cons_of_mem _ h1, h2⟩
          · exact Or.inr h1

theorem regexSubAux_nil (b : Bool) : regexSubAux b [] = [] := rfl

theorem regexSubAux_cons (b : Bool) (c : Char) (rest : List Char) :
    regexSubAux b (c :: rest) =
      if keepChar c = true then c :: regexSubAux false rest
      else if b = true then regexSubAux true rest else ' ' :: regexSubAux true rest := rfl

/-- `regexSubAux` passes a non-empty all-kept block through unchanged and
resets its gap flag. -/
theorem regexSubAux_keep_append : ∀ (tok : List Char), tok ≠ [] →
    (∀ c ∈ tok, keepChar c = true) → ∀ (b : Bool) (rest : List Char),
    regexSubAux b (tok ++ rest) = tok ++ regexSubAux false rest
  | [], hne, _, _, _ => absurd rfl hne
  | [a], _, hkeep, b, rest => by
    rw [List.singleton_append, regexSubAux_cons,
      if_pos (hkeep a (List.mem_singleton_self a)), List.singleton_append]
  | a :: t :: ts, _, hkeep, b, rest => by
    rw [List.cons_append, regexSubAux_cons, if_pos (hkeep a (List.mem_cons_self _ _)),
      regexSubAux_keep_append (t :: ts) (List.cons_ne_nil t ts)
        (fun c hc => hkeep c (List.mem_cons_of_mem _ hc)) false rest]
    simp

/-- The normalized join of good non-empty tokens is already normalized. -/
theorem regexSubAux_join : ∀ (toks : List (List Char)), (∀ t ∈ toks, t ≠ []) →
    (∀ t ∈ toks, ∀ c ∈ t, keepChar c = true) → ∀ b : Bool,
    regexSubAux b (List.intercalate [' '] toks) = List.intercalate [' '] toks
  | [], _, _, b => by simp [List.intercalate, regexSubAux_nil]
  | [t], hne, hkeep, b => by
    have hinter : List.intercalate [' '] [t] = t := by simp [List.intercalate]
    rw [hinter]
    have h := regexSubAux_keep_append t (hne t (List.mem_singleton_self t))
      (hkeep t (List.mem_singleton_self t)) b []
    rw [List.append_nil, regexSubAux_nil, List.append_nil] at h
    exact h
  | t :: u :: vs, hne, hkeep, b => by
    have hcc : List.intercalate [' '] (t :: u :: vs) =
        t ++ ' ' :: List.intercalate [' '] (u :: vs) := by
      simp [List.intercalate, List.intersperse]
    rw [hcc]
    rw [regexSubAux_keep_append t (hne t (List.mem_cons_self _ _))
      (hkeep t (List.mem_cons_self _ _)) b _]
    congr 1
    rw [regexSubAux_cons, if_neg (by decide), if_neg (by decide)]
    congr 1
    exact regexSubAux_join (u :: vs) (fun x hx => hne x (List.mem_cons_of_mem _ hx))
      (fun x hx => hkeep x (List.mem_cons_of_mem _ hx)) true

theorem intercalate_singleton (t : List Char) : List.intercalate [' '] [t] = t := by
  simp [List.intercalate]

theorem intercalate_cons_cons (t u : List Char) (vs : List (List Char)) :
    List.intercalate [' '] (t :: u :: vs) =
      t ++ ' ' :: List.intercalate [' '] (u :: vs) := by
  simp [List.intercalate, List.intersperse]

theorem mem_intercalate_space : ∀ (toks : List (List Char)) (c : Char),
    c ∈ List.intercalate [' '] toks → (∃ t ∈ toks, c ∈ t) ∨ c = ' '
  | [], c, h => by simp [List.intercalate] at h
  | [t], c, h => by
    rw [intercalate_singleton] at h
    exact Or.inl ⟨t, List.mem_singleton_self t, h⟩
  | t :: u :: vs, c, h => by
    rw [intercalate_cons_cons] at h
    rcases List.mem_append.mp h with h | h
    · exact Or.inl ⟨t, List.mem_cons_self _ _, h⟩
    · rcases List.mem_cons.mp h with rfl | h
      · exact Or.inr rfl
      · rcases mem_intercalate_space (u :: vs) c h with ⟨x, hx, hc⟩ | h
        · exact Or.inl ⟨x, List.mem_cons_of_mem _ hx, hc⟩
        · exact Or.inr h

theorem splitWsAux_nil (cur : List Char) :
    splitWsAux cur [] = if cur.isEmpty then [] else [cur.reverse] := rfl

theorem splitWsAux_cons (cur : List Char) (c : Char) (rest : List Char) :
    splitWsAux cur (c :: rest) =
      if isSpaceChar c = true then
        if cur.isEmpty then splitWsAux [] rest else cur.reverse :: splitWsAux [] rest
      else splitWsAux (c :: cur) rest := rfl

/-- Every piece `splitWsAux` produces is non-empty and inherits any
property holding of the accumulated and the upcoming non-space
characters. -/
theorem splitWsAux_prop {Q : Char → Prop} : ∀ (cs cur : List Char),
    (∀ c ∈ cur, Q c) → (∀ c ∈ cs, isSpaceChar c = false → Q c) →
    ∀ piece ∈ splitWsAux cur cs, piece ≠ [] ∧ ∀ c ∈ piece, Q c
  | [], cur, hcur, _, piece, hp => by
    rw [splitWsAux_nil] at hp
    split at hp
    · cases hp
    · rename_i hne
      rw [List.mem_singleton.mp hp]
      refine ⟨?_, ?_⟩
      · intro hc
        rw [List.reverse_eq_nil_iff] at hc
        rw [hc] at hne
        simp at hne
      · intro c hc
        exact hcur c (List.mem_reverse.mp hc)
  | d :: rest, cur, hcur, hcs, piece, hp => by
    rw [splitWsAux_cons] at hp
    by_cases hd : isSpaceChar d = true
    · rw [if_pos hd] at hp
      have hrest : ∀ c ∈ rest, isSpaceChar c = false → Q c :=
        fun c hc hns => hcs c (List.mem_cons_of_mem _ hc) hns
      by_cases hcurE : cur.isEmpty
      · rw [if_pos hcurE] at hp
        exact splitWsAux_prop rest [] (by simp) hrest piece hp
      · rw [if_neg hcurE] at hp
        rcases List.mem_cons.mp hp with rfl | hp
        · refine ⟨?_, ?_⟩
          · intro hc
            rw [List.reverse_eq_nil_iff] at hc
            rw [hc] at hcurE
            simp at hcurE
          · intro c hc
            exact hcur c (List.mem_reverse.mp hc)
        · exact splitWsAux_prop rest [] (by simp) hrest piece hp
    · rw [if_neg hd] at hp
      refine splitWsAux_prop rest (d :: cur) ?_
        (fun c hc hns => hcs c (List.mem_cons_of_mem _ hc) hns) piece hp
      intro c hc
      rcases List.mem_cons.mp hc with rfl | hc
      · exact hcs c (List.mem_cons_self _ _) (Bool.of_not_eq_true hd)
      · exact hcur c hc

/-- `splitWsAux` accumulates a block of non-space characters. -/
theorem splitWsAux_nonspace_append : ∀ (tok : List Char),
    (∀ c ∈ tok, isSpaceChar c = false) → ∀ (cur rest : List Char),
    splitWsAux cur (tok ++ rest) = splitWsAux (tok.reverse ++ cur) rest
  | [], _, cur, rest => by simp
  | a :: t, h, cur, rest => by
    rw [List.cons_append, splitWsAux_cons,
      if_neg (by rw [h a (List.mem_cons_self _ _)]; simp),
      splitWsAux_nonspace_append t (fun c hc => h c (List.mem_cons_of_mem _ hc))
        (a :: cur) rest]
    congr 1
    simp

/-- Splitting the space-join of non-empty space-free tokens recovers
exactly the tokens. -/
theorem splitWs_join : ∀ (toks : List (List Char)), (∀ t ∈ toks, t ≠ []) →
    (∀ t ∈ toks, ∀ c ∈ t, isSpaceChar c = false) →
    splitWs (List.intercalate [' '] toks) = toks
  | [], _, _ => rfl
  | [t], hne, _ => by
    rw [intercalate_singleton, splitWs,
      show t = t ++ [] from (List.append_nil t).symm,
      splitWsAux_nonspace_append t (by
        intro c hc
        rename_i hns
        exact hns t (List.mem_singleton_self t) c (by simpa using hc)) [] [],
      splitWsAux_nil]
    rw [if_neg (by
      simp only [List.append_nil, List.isEmpty_eq_true, List.reverse_eq_nil_iff]
      exact hne t (List.mem_singleton_self t))]
    simp
  | t :: u :: vs, hne, hns => by
    rw [intercalate_cons_cons, splitWs,
      splitWsAux_nonspace_append t (hns t (List.mem_cons_self _ _)) [] _,
      splitWsAux_cons, if_pos (by decide),
      if_neg (by
        simp only [List.append_nil, List.isEmpty_eq_true, List.reverse_eq_nil_iff]
        exact hne t (List.mem_cons_self _ _))]
    have hrev : (t.reverse ++ ([] : List Char)).reverse = t := by simp
    rw [hrev]
    have ih := splitWs_join (u :: vs) (fun x hx => hne x (List.mem_cons_of_mem _ hx))
      (fun x hx => hns x (List.mem_cons_of_mem _ hx))
    rw [splitWs] at ih
    rw [ih]

theorem stripMarkupAux_cons_false (c : Char) (rest : List Char) :
    stripMarkupAux false (c :: rest) =
      if c = '<' then stripMarkupAux true rest else c :: stripMarkupAux false rest := rfl

/-- Markup stripping is the identity on tag-free text. -/
theorem stripMarkupAux_no_tag : ∀ (cs : List Char), '<' ∉ cs →
    stripMarkupAux false cs = cs
  | [], _ => rfl
  | c :: rest, h => by
    rw [stripMarkupAux_cons_false,
      if_neg (fun hc : c = '<' => h (by rw [← hc]; exact List.mem_cons_self _ _)),
      stripMarkupAux_no_tag rest (fun hc => h (List.mem_cons_of_mem _ hc))]

theorem TextPipeline.stem_tokens_none {pipe : TextPipeline} (h : pipe.stemmer = none)
    (tokens : List String) : pipe.stem_tokens tokens = tokens := by
  unfold TextPipeline.stem_tokens
  rw [h]

/-- With stemming disabled, every token `transform` produces is non-empty
and consists of kept, lowercase-fixed characters. -/
theorem transform_tokens_good (pipe : TextPipeline) (hstem : pipe.stemmer = none)
    (t : String) :
    ∀ tok ∈ pipe.transform t, tok ≠ "" ∧ ∀ c ∈ tok.toList, goodChar c = true := by
  intro tok htok
  rw [TextPipeline.transform, TextPipeline.stem_tokens_none hstem] at htok
  have htok2 : tok ∈ TextPipeline.tokenize (TextPipeline.normalize_text t) := by
    rw [TextPipeline.filter_stopwords] at htok
    split at htok
    · exact htok
    · exact List.mem_of_mem_filter htok
  rw [TextPipeline.tokenize] at htok2
  have htokf := List.mem_filter.mp htok2
  have htokne : tok ≠ "" := by
    have := htokf.2
    simpa using this
  rcases List.mem_map.mp htokf.1 with ⟨piece, hpiece, hmk⟩
  have hprop : piece ≠ [] ∧ ∀ c ∈ piece, goodChar c = true :=
    splitWsAux_prop (TextPipeline.normalize_text t).toList [] (by simp) ?_ piece hpiece
  · refine ⟨htokne, ?_⟩
    intro c hc
    rw [← hmk] at hc
    exact hprop.2 c hc
  · intro c hc hns
    rw [TextPipeline.normalize_text] at hc
    have hc' : c ∈ regexSub ((stripMarkup t.toList).map lowerChar) := hc
    rcases mem_regexSubAux false _ c hc' with ⟨hin, hkeep⟩ | hsp
    · rcases List.mem_map.mp hin with ⟨c', _, hc'⟩
      rw [goodChar, hkeep, Bool.true_and, decide_eq_true_eq, ← hc']
      exact lowerChar_idem c'
    · rw [hsp] at hns
      simp [isSpaceChar] at hns

theorem goodChar_not_space {c : Char} (h : goodChar c = true) : isSpaceChar c = false := by
  rw [goodChar, Bool.and_eq_true] at h
  by_cases hs : isSpaceChar c = true
  · rw [keepChar_of_space hs] at h
    cases h.1
  · exact Bool.of_not_eq_true hs

theorem goodChar_keep {c : Char} (h : goodChar c = true) : keepChar c = true := by
  rw [goodChar, Bool.and_eq_true] at h
  exact h.1

theorem goodChar_lower {c : Char} (h : goodChar c = true) : lowerChar c = c := by
  rw [goodChar, Bool.and_eq_true, decide_eq_true_eq] at h
  exact h.2

/-- With stemming disabled, normalization is a fixed point after one
application: transforming the whitespace-join of `transform t` yields the
same token list. -/
theorem transform_fixed_point (pipe : TextPipeline) (hstem : pipe.stemmer = none)
    (t : String) :
    pipe.transform (joinTokens (pipe.transform t)) = pipe.transform t := by
  have hgood := transform_tokens_good pipe hstem t
  have hpieces_ne : ∀ p ∈ (pipe.transform t).map String.toList, p ≠ [] := by
    intro p hp
    rcases List.mem_map.mp hp with ⟨tok, htok, rfl⟩
    intro hc
    have := (hgood tok htok).1
    apply this
    have : tok = String.mk tok.toList := rfl
    rw [this, hc]
  have hpieces_good : ∀ p ∈ (pipe.transform t).map String.toList,
      ∀ c ∈ p, goodChar c = true := by
    intro p hp c hc
    rcases List.mem_map.mp hp with ⟨tok, htok, rfl⟩
    exact (hgood tok htok).2 c hc
  have hJ : (joinTokens (pipe.transform t)).toList =
      List.intercalate [' '] ((pipe.transform t).map String.toList) := rfl
  -- characters of the join are good or spaces
  have hJchars : ∀ c ∈ (joinTokens (pipe.transform t)).toList,
      goodChar c = true ∨ c = ' ' := by
    intro c hc
    rw [hJ] at hc
    rcases mem_intercalate_space _ c hc with ⟨p, hp, hcp⟩ | hsp
    · exact Or.inl (hpieces_good p hp c hcp)
    · exact Or.inr hsp
  -- markup stripping is the identity on the join
  have hstrip : stripMarkup (joinTokens (pipe.transform t)).toList =
      (joinTokens (pipe.transform t)).toList := by
    apply stripMarkupAux_no_tag
    intro hmem
    rcases hJchars '<' hmem with hg | hsp
    · have hk : keepChar '<' = false := by decide
      rw [goodChar, hk] at hg
      cases hg
    · exact absurd hsp (by decide)
  -- lowercasing is the identity on the join
  have hlower : ((joinTokens (pipe.transform t)).toList).map lowerChar =
      (joinTokens (pipe.transform t)).toList := by
    have h : List.map lowerChar (joinTokens (pipe.transform t)).toList =
        List.map id (joinTokens (pipe.transform t)).toList := List.map_congr_left ?_
    · rw [h, List.map_id]
    · intro c hc
      rcases hJchars c hc with hg | hsp
      · exact goodChar_lower hg
      · rw [hsp]
        decide
  -- the cleaning regex is the identity on the join
  have hregex : regexSub ((joinTokens (pipe.transform t)).toList) =
      (joinTokens (pipe.transform t)).toList := by
    rw [hJ]
    exact regexSubAux_join _ hpieces_ne
      (fun p hp c hc => goodChar_keep (hpieces_good p hp c hc)) false
  -- hence the normalizer passes the join through unchanged
  have hnorm : TextPipeline.normalize_text (joinTokens (pipe.transform t)) =
      joinTokens (pipe.transform t) := by
    rw [TextPipeline.normalize_text, hstrip, hlower, hregex]
    rfl
  -- and the tokenizer recovers exactly the tokens
  have htokz : TextPipeline.tokenize (joinTokens (pipe.transform t)) =
      pipe.transform t := by
    rw [TextPipeline.tokenize]
    have hsplit : splitWs ((joinTokens (pipe.transform t)).toList) =
        (pipe.transform t).map String.toList := by
      rw [hJ]
      exact splitWs_join _ hpieces_ne
        (fun p hp c hc => goodChar_not_space (hpieces_good p hp c hc))
    rw [hsplit, List.map_map]
    have hmk : ((pipe.transform t).map (String.mk ∘ String.toList)) =
        pipe.transform t := by
      have h : List.map (String.mk ∘ String.toList) (pipe.transform t) =
          List.map id (pipe.transform t) := List.map_congr_left ?_
      · rw [h, List.map_id]
      · intro tok _
        rfl
    rw [hmk]
    rw [List.filter_eq_self.mpr]
    intro tok htok
    have := (hgood tok htok).1
    simpa using this
  -- the stopword filter keeps its own output
  have hfil : pipe.filter_stopwords (pipe.transform t) = pipe.transform t := by
    by_cases hse : pipe.stopword_set.isEmpty
    · rw [TextPipeline.filter_stopwords, if_pos hse]
    · rw [TextPipeline.filter_stopwords, if_neg hse]
      rw [List.filter_eq_self.mpr]
      intro tok htok
      rw [TextPipeline.transform, TextPipeline.stem_tokens_none hstem,
        TextPipeline.filter_stopwords, if_neg hse] at htok
      exact List.mem_filter.mp htok |>.2
  rw [TextPipeline.transform, TextPipeline.stem_tokens_none hstem, hnorm, htokz, hfil]

/-! ### Properties of the scanning loop -/

/-- Every emitted position carries the match's path and score, the given
label, and a unit index at or beyond the running index. -/
theorem scanUnits_mem (pipe : TextPipeline) (m : SourceMatch) (qt : List String)
    (mp sl : Int) (label : String) :
    ∀ (units : List String) (idx count : Nat) (pos : SourcePosition),
      pos ∈ scanUnits pipe m qt mp sl label units idx count →
      pos.path = m.path ∧ pos.score = m.score ∧ pos.label = label ∧ idx ≤ pos.index
  | [], idx, count, pos, h => by simp [scanUnits] at h
  | u :: rest, idx, count, pos, h => by
    unfold scanUnits at h
    split at h
    · cases h
    · dsimp only at h
      split at h
      · have := scanUnits_mem pipe m qt mp sl label rest (idx + 1) count pos h
        exact ⟨this.1, this.2.1, this.2.2.1, by omega⟩
      · split at h
        · rcases List.mem_cons.mp h with h | h
          · rw [h]
            exact ⟨rfl, rfl, rfl, le_refl _⟩
          · have := scanUnits_mem pipe m qt mp sl label rest (idx + 1) (count + 1) pos h
            exact ⟨this.1, this.2.1, this.2.2.1, by omega⟩
        · have := scanUnits_mem pipe m qt mp sl label rest (idx + 1) count pos h
          exact ⟨this.1, this.2.1, this.2.2.1, by omega⟩

/-- Within one scanned file the emitted unit indices strictly increase. -/
theorem scanUnits_index_sorted (pipe : TextPipeline) (m : SourceMatch) (qt : List String)
    (mp sl : Int) (label : String) :
    ∀ (units : List String) (idx count : Nat),
      (scanUnits pipe m qt mp sl label units idx count).Pairwise
        (fun a b => a.index < b.index)
  | [], idx, count => by simp [scanUnits]
  | u :: rest, idx, count => by
    unfold scanUnits
    split
    · exact List.Pairwise.nil
    · dsimp only
      split
      · exact scanUnits_index_sorted pipe m qt mp sl label rest (idx + 1) count
      · split
        · refine List.Pairwise.cons ?_
            (scanUnits_index_sorted pipe m qt mp sl label rest (idx + 1) (count + 1))
          intro pos hpos
          have := (scanUnits_mem pipe m qt mp sl label rest (idx + 1) (count + 1)
            pos hpos).2.2.2
          simp only
          omega
        · exact scanUnits_index_sorted pipe m qt mp sl label rest (idx + 1) count

/-- The scan stops after `max_positions_per_file` hits: starting from
`count` collected positions it emits at most `mp.toNat - count` more. -/
theorem scanUnits_length_le (pipe : TextPipeline) (m : SourceMatch) (qt : List String)
    (mp sl : Int) (label : String) :
    ∀ (units : List String) (idx count : Nat),
      (scanUnits pipe m qt mp sl label units idx count).length ≤ mp.toNat - count
  | [], idx, count => by simp [scanUnits]
  | u :: rest, idx, count => by
    unfold scanUnits
    split
    · simp
    · rename_i hcount
      push_neg at hcount
      dsimp only
      split
      · exact scanUnits_length_le pipe m qt mp sl label rest (idx + 1) count
      · split
        · have h := scanUnits_length_le pipe m qt mp sl label rest (idx + 1) (count + 1)
          simp only [List.length_cons]
          omega
        · exact scanUnits_length_le pipe m qt mp sl label rest (idx + 1) count

/-! ### Concrete instances for the executable examples -/

/-- A small concrete vectorizer configuration: 4 feature slots, token
length as the stand-in for the external hash function. -/
def exCfg : VecConfig := ⟨4, String.length⟩

/-- A pipeline configured with no stopwords and no stemmer. -/
def exPipe : TextPipeline := ⟨[], none⟩

/-- A fresh indexer, as `__init__` leaves it. -/
def exEmpty : TfidfIndexer := {}

/-- A document with its tokens already assigned, as `_process_document`
leaves it before `partial_fit`. -/
def exDoc (p : String) (toks : List String) : Document :=
  { path := p, text := joinTokens toks, tokens := toks }

/-- A batch mixing one zero-token and one tokenized document. -/
def exChunkMixed : List Document := [exDoc "a.txt" [], exDoc "a.txt" ["x"]]

/-- The index after fitting the mixed batch. -/
def exStateMixed : TfidfIndexer := exEmpty.partial_fit exCfg exChunkMixed

/-- An index of six one-token documents. -/
def exState6 : TfidfIndexer :=
  exEmpty.partial_fit exCfg [exDoc "p" ["a"], exDoc "p" ["a"], exDoc "p" ["a"],
    exDoc "p" ["a"], exDoc "p" ["a"], exDoc "p" ["a"]]

/-- Two files with two units each: each file has one unit identical to
the query `"aa"` (cosine 1) and one weaker unit.  `a.txt` enters the
index first, but `b.txt` owns the earlier best-scoring unit. -/
def exStateTie : TfidfIndexer :=
  exEmpty.partial_fit exCfg [exDoc "a.txt" ["aa", "b"], exDoc "b.txt" ["aa"],
    exDoc "b.txt" ["aa", "b"], exDoc "a.txt" ["aa"]]

/-- A pipeline whose (modelled) stemmer is not idempotent: it rewrites
`bb` to `b` and `b` to `c`. -/
def exPipeStem : TextPipeline :=
  ⟨[], some (fun s => if s = "bb" then "b" else if s = "b" then "c" else s)⟩

/-- A filesystem with nothing in it. -/
def exFs : FileSystem := ⟨fun _ => "", fun _ => []⟩

/-! ### The claims -/

/-- C1: the spec's alignment invariant `row_count(matrix) == len(doc_index)`
(row `i` being the vector of `doc_index[i]`, zero-token documents kept out
of both) is the clear intent — `query` pairs the two structures positionally
with `zip` — but `partial_fit` extends `doc_index` with the whole chunk while
vectorizing only the documents with non-empty tokens.  At the failing input
`exChunkMixed` (one zero-token document followed by one tokenized document)
the matrix gains one row while the doc index gains two entries, so row 0's
scores are attributed to the zero-token document from then on. -/
theorem claim_C1_misalignment_failing_input :
    exStateMixed.matrix = some [[0, 1, 0, 0]] ∧ exStateMixed.doc_index.length = 2 := by
  decide

/-- C2, counterexample: `query` called with `top_k` unspecified uses the
source's default `top_k = 5`, not the full ranking — on a six-document
index it returns five pairs, not one per indexed document. -/
theorem claim_C2_counterexample :
    (TfidfIndexer.queryDefault exCfg exState6 ["a"]).length = 5 ∧
      exState6.doc_index.length = 6 := by
  decide

/-- C2, amended: on a non-empty aligned index, `query` with `top_k=None`
returns the full ranking — one `(Document, score)` pair per indexed
document — and with an explicit `top_k = k ≥ 0` returns
`min k (corpus size)` pairs (at most `k`; fewer only when the corpus is
smaller). -/
theorem claim_C2_amended (cfg : VecConfig) (st : TfidfIndexer) (tokens : List String)
    (m : List (List Nat)) (hm : st.matrix = some m)
    (hlen : m.length = st.doc_index.length) (hd : st.doc_index.isEmpty = false)
    (k : Int) (hk : 0 ≤ k) :
    (st.query cfg tokens none).length = st.doc_index.length ∧
      (st.query cfg tokens (some k)).length = min k.toNat st.doc_index.length :=
  ⟨query_none_length cfg st tokens m hm hlen hd,
    query_some_length cfg st tokens m k hm hlen hk⟩

theorem claim_C2_witness :
    (exState6.matrix = some (List.replicate 6 [0, 1, 0, 0]) ∧
      (List.replicate 6 [0, 1, 0, 0]).length = exState6.doc_index.length ∧
      exState6.doc_index.isEmpty = false ∧ (0 : Int) ≤ 3) ∧
    ((exState6.query exCfg ["a"] none).length = exState6.doc_index.length ∧
      (exState6.query exCfg ["a"] (some 3)).length =
        min (3 : Int).toNat exState6.doc_index.length) :=
  ⟨by decide, claim_C2_amended exCfg exState6 ["a"] (List.replicate 6 [0, 1, 0, 0])
    (by decide) (by decide) (by decide) 3 (by decide)⟩

/-- C3: every match `find_sources` returns scores strictly positively,
and its score is exactly the maximum cosine similarity over the indexed
units of its path; paths whose best similarity is `≤ 0` never appear
(they are members of no returned match). -/
theorem claim_C3_max_positive_aggregation (cfg : VecConfig) (pipe : TextPipeline)
    (st : TfidfIndexer) (q : String) (k : Int) (m : List (List Nat))
    (hm : st.matrix = some m) (_hlen : m.length = st.doc_index.length)
    (sm : SourceMatch) (hsm : sm ∈ find_sources cfg pipe st q k) :
    0 < sm.score.toReal ∧
      sm.score.toReal ∈ pathUnitSims cfg st.doc_index m (pipe.transform q) sm.path ∧
      ∀ x ∈ pathUnitSims cfg st.doc_index m (pipe.transform q) sm.path,
        x ≤ sm.score.toReal := by
  have hagg := mem_find_sources hsm
  obtain ⟨⟨e, he, hep, hes⟩, hposb, hmax⟩ :=
    (aggregate_inv (st.query cfg (pipe.transform q) none)).max_mem _ _ hagg
  have hpos : 0 < sm.score.toReal := by
    by_contra hc
    push_neg at hc
    rw [(Score.le_zero_iff sm.score).mpr hc] at hposb
    cases hposb
  by_cases hd : st.doc_index.isEmpty
  · rw [query_empty_docs cfg st _ none hd] at he
    cases he
  · have hqe := query_eq_ranked cfg st (pipe.transform q) m hm (Bool.of_not_eq_true hd)
    have hperm : (st.query cfg (pipe.transform q) none).Perm
        (st.doc_index.zip (m.map (cosineScore (vectorizerTransform cfg
          (joinTokens (pipe.transform q)))))) := by
      rw [hqe]
      exact List.perm_insertionSort _ _
    have hzip : st.doc_index.zip (m.map (cosineScore (vectorizerTransform cfg
          (joinTokens (pipe.transform q))))) =
        (st.doc_index.zip m).map (Prod.map id (cosineScore (vectorizerTransform cfg
          (joinTokens (pipe.transform q))))) :=
      List.zip_map_right _ _ _
    refine ⟨hpos, ?_, ?_⟩
    · have he' : e ∈ (st.doc_index.zip m).map (Prod.map id (cosineScore
          (vectorizerTransform cfg (joinTokens (pipe.transform q))))) := by
        rw [← hzip]
        exact hperm.mem_iff.mp he
      rcases List.mem_map.mp he' with ⟨e0, he0, heq⟩
      rw [pathUnitSims]
      refine List.mem_map.mpr ⟨e0, List.mem_filter.mpr ⟨he0, ?_⟩, ?_⟩
      · simp only [decide_eq_true_eq]
        have hfst : e.1 = e0.1 := by rw [← heq]; rfl
        rw [← hfst]
        exact hep
      · have hsnd : e.2 = cosineScore (vectorizerTransform cfg
            (joinTokens (pipe.transform q))) e0.2 := by
          rw [← heq]
          rfl
        rw [← cosineScore_toReal, ← hsnd, hes]
    · intro x hx
      rw [pathUnitSims] at hx
      rcases List.mem_map.mp hx with ⟨e0, he0f, hxe⟩
      have he0 := List.mem_filter.mp he0f
      have hmm : (e0.1, cosineScore (vectorizerTransform cfg
          (joinTokens (pipe.transform q))) e0.2) ∈
          st.query cfg (pipe.transform q) none := by
        apply hperm.mem_iff.mpr
        rw [hzip]
        exact List.mem_map.mpr ⟨e0, he0.1, rfl⟩
      have hle := hmax _ hmm (by
        have := he0.2
        simpa using this)
      rw [← hxe, ← cosineScore_toReal]
      exact (Score.le_iff_toReal _ _).mp hle

theorem claim_C3_witness :
    (exStateTie.matrix =
        some [[0, 1, 1, 0], [0, 0, 1, 0], [0, 1, 1, 0], [0, 0, 1, 0]] ∧
      ([[0, 1, 1, 0], [0, 0, 1, 0], [0, 1, 1, 0], [0, 0, 1, 0]] :
        List (List Nat)).length = exStateTie.doc_index.length ∧
      (⟨"b.txt", ⟨1, 1⟩⟩ : SourceMatch) ∈ find_sources exCfg exPipe exStateTie "aa" 5) ∧
    (0 < (Score.mk 1 1).toReal ∧
      (Score.mk 1 1).toReal ∈ pathUnitSims exCfg exStateTie.doc_index
        [[0, 1, 1, 0], [0, 0, 1, 0], [0, 1, 1, 0], [0, 0, 1, 0]]
        (exPipe.transform "aa") "b.txt" ∧
      ∀ x ∈ pathUnitSims exCfg exStateTie.doc_index
        [[0, 1, 1, 0], [0, 0, 1, 0], [0, 1, 1, 0], [0, 0, 1, 0]]
        (exPipe.transform "aa") "b.txt", x ≤ (Score.mk 1 1).toReal) :=
  ⟨⟨by decide, by decide, by decide⟩,
    claim_C3_max_positive_aggregation exCfg exPipe exStateTie "aa" 5
      [[0, 1, 1, 0], [0, 0, 1, 0], [0, 1, 1, 0], [0, 0, 1, 0]]
      (by decide) (by decide) ⟨"b.txt", ⟨1, 1⟩⟩ (by decide)⟩

/-- C4: a query that normalizes to zero tokens, an index without rows
(no matrix or no documents), and a corpus in which no unit scores
positively all produce ordinary empty results from both `find_sources`
and `locate_source_positions` — total functions, no exception. -/
theorem claim_C4_empty_results (cfg : VecConfig) (pipe : TextPipeline) (fs : FileSystem)
    (st : TfidfIndexer) (q : String) (k mp sl : Int)
    (h : (pipe.transform q).isEmpty = true ∨ st.matrix = none ∨
      st.doc_index.isEmpty = true ∨
      ∀ e ∈ st.query cfg (pipe.transform q) none, e.2.toReal ≤ 0) :
    find_sources cfg pipe st q k = [] ∧
      locate_source_positions cfg pipe fs st q k mp sl = [] := by
  have hfind : find_sources cfg pipe st q k = [] := by
    unfold find_sources
    dsimp only
    by_cases ht : (pipe.transform q).isEmpty
    · rw [if_pos ht]
    · rw [if_neg ht]
      have hq0 : aggregate_best_scores (st.query cfg (pipe.transform q) none) = [] := by
        rcases h with h | h | h | h
        · exact absurd h ht
        · rw [query_matrix_none cfg st _ none h]
          rfl
        · rw [query_empty_docs cfg st _ none h]
          rfl
        · exact aggregate_eq_nil_of_nonpos h
      rw [hq0,
        show List.insertionSort scoreDescOrder ([] : List (String × Score)) = [] from rfl,
        pySlice_nil]
      rfl
  refine ⟨hfind, ?_⟩
  unfold locate_source_positions
  dsimp only
  rw [hfind]
  rfl

theorem claim_C4_witness :
    ((exPipe.transform "!!!").isEmpty = true ∨ exEmpty.matrix = none ∨
      exEmpty.doc_index.isEmpty = true ∨
      ∀ e ∈ exEmpty.query exCfg (exPipe.transform "!!!") none, e.2.toReal ≤ 0) ∧
    (find_sources exCfg exPipe exEmpty "!!!" 5 = [] ∧
      locate_source_positions exCfg exPipe exFs exEmpty "!!!" 5 2 200 = []) :=
  ⟨Or.inl (by decide),
    claim_C4_empty_results exCfg exPipe exFs exEmpty "!!!" 5 2 200 (Or.inl (by decide))⟩

/-- C5, counterexample: in `exStateTie`, `a.txt` is inserted into the
index before `b.txt` (doc order a, b, b, a) and the two files tie with
score 1 exactly, yet `find_sources` ranks `b.txt` first — ties follow the
order of each path's best-scoring unit in the per-unit ranking (the dict
insertion order), not the insertion order of the paths in the index. -/
theorem claim_C5_counterexample :
    (find_sources exCfg exPipe exStateTie "aa" 5).map SourceMatch.path =
      ["b.txt", "a.txt"] ∧
    (find_sources exCfg exPipe exStateTie "aa" 5).map SourceMatch.score =
      [⟨1, 1⟩, ⟨1, 1⟩] ∧
    exStateTie.doc_index.map Document.path = ["a.txt", "b.txt", "b.txt", "a.txt"] := by
  decide

/-- C5, amended: for every `k ≥ 0`, `find_sources(q, top_k=k)` returns at
most `k` matches sorted by score descending, with exact score ties ranked
by the position of each tied path's first strictly positive entry in the
per-unit ranking (its earliest best-scoring unit), not by the path's
insertion order in the index. -/
theorem claim_C5_topk_sorted_stable (cfg : VecConfig) (pipe : TextPipeline)
    (st : TfidfIndexer) (q : String) (k : Int) (hk : 0 ≤ k) :
    (find_sources cfg pipe st q k).length ≤ k.toNat ∧
    (find_sources cfg pipe st q k).Pairwise
      (fun a b => b.score.toReal ≤ a.score.toReal) ∧
    (find_sources cfg pipe st q k).Pairwise
      (fun a b => a.score.toReal = b.score.toReal →
        firstPosIdx (st.query cfg (pipe.transform q) none) a.path <
          firstPosIdx (st.query cfg (pipe.transform q) none) b.path) := by
  unfold find_sources
  dsimp only
  split
  · refine ⟨by simp, List.Pairwise.nil, List.Pairwise.nil⟩
  · refine ⟨?_, ?_, ?_⟩
    · rw [List.length_map]
      exact pySlice_length_le _ k hk
    · have hs := List.sorted_insertionSort scoreDescOrder
        (aggregate_best_scores (st.query cfg (pipe.transform q) none))
      have hs2 := List.Pairwise.sublist (pySlice_sublist _ k) hs
      rw [List.pairwise_map]
      refine hs2.imp ?_
      intro a b hab
      exact (Score.le_iff_toReal _ _).mp hab
    · have hord := (aggregate_inv (st.query cfg (pipe.transform q) none)).ordered
      have hstab := pairwise_insertionSort_of_pairwise scoreDescOrder _ hord
      have hsorted := List.sorted_insertionSort scoreDescOrder
        (aggregate_best_scores (st.query cfg (pipe.transform q) none))
      have hcomb := hstab.and hsorted
      have hsub := List.Pairwise.sublist (pySlice_sublist _ k) hcomb
      rw [List.pairwise_map]
      refine hsub.imp ?_
      intro a b hab heq
      have hr1 : scoreDescOrder a b := hab.2
      have hr2 : scoreDescOrder b a := by
        unfold scoreDescOrder
        exact (Score.le_iff_toReal _ _).mpr (le_of_eq heq)
      exact hab.1 hr1 hr2

theorem claim_C5_witness :
    (0 : Int) ≤ 5 ∧
    ((find_sources exCfg exPipe exStateTie "aa" 5).length ≤ (5 : Int).toNat ∧
      (find_sources exCfg exPipe exStateTie "aa" 5).Pairwise
        (fun a b => b.score.toReal ≤ a.score.toReal) ∧
      (find_sources exCfg exPipe exStateTie "aa" 5).Pairwise
        (fun a b => a.score.toReal = b.score.toReal →
          firstPosIdx (exStateTie.query exCfg (exPipe.transform "aa") none) a.path <
            firstPosIdx (exStateTie.query exCfg (exPipe.transform "aa") none) b.path)) :=
  ⟨by decide, claim_C5_topk_sorted_stable exCfg exPipe exStateTie "aa" 5 (by decide)⟩

/-- C6, counterexample: the claim quantifies over every `snippet_len`
limit, but for a negative limit Python's slice keeps all but the last
characters, so `_truncate("ab", -1) = "a..."` has length `4 > -1 + 3`. -/
theorem claim_C6_counterexample :
    truncate "ab" (-1) = "a..." ∧
      ¬ (((truncate "ab" (-1)).length : Int) ≤ (-1) + 3) := by
  decide

/-- C6, amended: for every non-negative `snippet_len` limit, a text within
the limit passes through `_truncate` unchanged; a longer text becomes the
first `limit` characters, right-stripped, plus the `"..."` marker — of
length at most `limit + 3` and (marker aside) a prefix of the original
text. -/
theorem claim_C6_amended (text : String) (limit : Int) (hlim : 0 ≤ limit) :
    ((text.length : Int) ≤ limit → truncate text limit = text) ∧
    (limit < (text.length : Int) →
      truncate text limit =
        pyRstrip (String.mk (text.toList.take limit.toNat)) ++ "..." ∧
      ((truncate text limit).length : Int) ≤ limit + 3 ∧
      (pyRstrip (String.mk (text.toList.take limit.toNat))).toList <+: text.toList) := by
  constructor
  · intro hle
    rw [truncate, if_pos hle]
  · intro hgt
    have hne : ¬ ((text.length : Int) ≤ limit) := by omega
    have heq : truncate text limit =
        pyRstrip (String.mk (text.toList.take limit.toNat)) ++ "..." := by
      rw [truncate, if_neg hne, pySlice, if_pos hlim]
    refine ⟨heq, ?_, ?_⟩
    · rw [heq, String.length_append]
      have h1 : (pyRstrip (String.mk (text.toList.take limit.toNat))).length ≤
          limit.toNat := by
        rw [pyRstrip]
        have hlen : (String.mk
            (((String.mk (text.toList.take limit.toNat)).toList.reverse.dropWhile
              isSpaceChar).reverse)).length =
            ((text.toList.take limit.toNat).reverse.dropWhile isSpaceChar).length := by
          simp [String.length]
        rw [hlen]
        calc ((text.toList.take limit.toNat).reverse.dropWhile isSpaceChar).length
            ≤ (text.toList.take limit.toNat).reverse.length :=
              ((List.dropWhile_suffix _).sublist).length_le
          _ = (text.toList.take limit.toNat).length := List.length_reverse _
          _ ≤ limit.toNat := by rw [List.length_take]; omega
      have h3 : ("..." : String).length = 3 := by decide
      rw [h3]
      omega
    · have hpre1 : (pyRstrip (String.mk (text.toList.take limit.toNat))).toList <+:
          text.toList.take limit.toNat := by
        rw [pyRstrip]
        have : (String.mk
            (((String.mk (text.toList.take limit.toNat)).toList.reverse.dropWhile
              isSpaceChar).reverse)).toList =
            ((text.toList.take limit.toNat).reverse.dropWhile isSpaceChar).reverse := rfl
        rw [this]
        rw [← List.reverse_suffix]
        simpa using List.dropWhile_suffix isSpaceChar
      exact hpre1.trans (List.take_prefix _ _)

theorem claim_C6_witness :
    (0 : Int) ≤ 1 ∧
    ((((("ab" : String).length : Int) ≤ 1 → truncate "ab" 1 = "ab") ∧
      ((1 : Int) < (("ab" : String).length : Int) →
        truncate "ab" 1 =
          pyRstrip (String.mk (("ab" : String).toList.take (1 : Int).toNat)) ++ "..." ∧
        ((truncate "ab" 1).length : Int) ≤ 1 + 3 ∧
        (pyRstrip (String.mk (("ab" : String).toList.take (1 : Int).toNat))).toList <+:
          ("ab" : String).toList))) :=
  ⟨by decide, claim_C6_amended "ab" 1 (by decide)⟩

/-- C7: `locate_source_positions` emits at most `max_positions_per_file`
positions carrying any one path, and the overall result lists files in
match-rank order (the order of `find_sources`) with each file's positions
in strictly ascending unit order. -/
theorem claim_C7_position_cap_and_order (cfg : VecConfig) (pipe : TextPipeline)
    (fs : FileSystem) (st : TfidfIndexer) (q : String) (k mp sl : Int) :
    (∀ p : String,
      ((locate_source_positions cfg pipe fs st q k mp sl).filter
        (fun pos => pos.path = p)).length ≤ mp.toNat) ∧
    (locate_source_positions cfg pipe fs st q k mp sl).Pairwise
      (fun a b =>
        (a.path = b.path → a.index < b.index) ∧
        (a.path ≠ b.path →
          ((find_sources cfg pipe st q k).map SourceMatch.path).indexOf a.path <
            ((find_sources cfg pipe st q k).map SourceMatch.path).indexOf b.path)) := by
  have hbpath : ∀ (m : SourceMatch) (pos : SourcePosition),
      pos ∈ (if isDocxPath m.path then
        scan_docx fs pipe m (pipe.transform q) mp sl
      else scan_text fs pipe m (pipe.transform q) mp sl) → pos.path = m.path := by
    intro m pos hpos
    split at hpos
    · unfold scan_docx at hpos
      exact (scanUnits_mem pipe m _ mp sl "paragraph" _ 1 0 pos hpos).1
    · unfold scan_text at hpos
      exact (scanUnits_mem pipe m _ mp sl "line" _ 1 0 pos hpos).1
  have hblen : ∀ m : SourceMatch,
      ((if isDocxPath m.path then
        scan_docx fs pipe m (pipe.transform q) mp sl
      else scan_text fs pipe m (pipe.transform q) mp sl)).length ≤ mp.toNat := by
    intro m
    split
    · unfold scan_docx
      have := scanUnits_length_le pipe m (pipe.transform q) mp sl "paragraph"
        (fs.docx_paragraphs m.path) 1 0
      omega
    · unfold scan_text
      have := scanUnits_length_le pipe m (pipe.transform q) mp sl "line"
        (pySplitlines (fs.read_text m.path)) 1 0
      omega
  have hbidx : ∀ m : SourceMatch,
      ((if isDocxPath m.path then
        scan_docx fs pipe m (pipe.transform q) mp sl
      else scan_text fs pipe m (pipe.transform q) mp sl)).Pairwise
        (fun a b => a.index < b.index) := by
    intro m
    split
    · exact scanUnits_index_sorted pipe m _ mp sl "paragraph" _ 1 0
    · exact scanUnits_index_sorted pipe m _ mp sl "line" _ 1 0
  unfold locate_source_positions
  dsimp only
  split
  · constructor
    · intro p
      simp
    · exact List.Pairwise.nil
  · constructor
    · intro p
      exact filter_flatMap_length_le p SourceMatch.path mp.toNat
        (find_sources cfg pipe st q k) _
        (find_sources_paths_nodup cfg pipe st q k)
        (fun m _ => hbpath m)
        (fun m _ => hblen m)
    · rw [List.pairwise_flatMap]
      constructor
      · intro m hm
        refine List.Pairwise.imp_of_mem ?_ (hbidx m)
        intro a b ha hb hab
        refine ⟨fun _ => hab, ?_⟩
        intro hne
        exact absurd ((hbpath m a ha).trans (hbpath m b hb).symm) hne
      · have hnd := find_sources_paths_nodup cfg pipe st q k
        have hpw : (find_sources cfg pipe st q k).Pairwise (fun m1 m2 =>
            ((find_sources cfg pipe st q k).map SourceMatch.path).indexOf m1.path <
              ((find_sources cfg pipe st q k).map SourceMatch.path).indexOf m2.path) := by
          have h := nodup_pairwise_indexOf hnd
          rw [List.pairwise_map] at h
          exact h
        refine hpw.imp ?_
        intro m1 m2 h12
        intro x hx y hy
        refine ⟨?_, ?_⟩
        · intro hxy
          exfalso
          have hxp := hbpath m1 x hx
          have hyp := hbpath m2 y hy
          rw [hxp, hyp] at hxy
          rw [hxy] at h12
          exact lt_irrefl _ h12
        · intro _
          rw [hbpath m1 x hx, hbpath m2 y hy]
          exact h12

/-- C8, counterexample: with a stemmer in the configuration the pipeline
need not be a fixed point — the modelled stemmer sends `bb` to `b` and
`b` to `c`, so a second pass over the joined output changes the tokens. -/
theorem claim_C8_counterexample :
    exPipeStem.transform (joinTokens (exPipeStem.transform "bb")) ≠
      exPipeStem.transform "bb" := by
  decide

/-- C8, amended: for every configuration whose stemming step is disabled,
normalization is a fixed point after one application — transforming the
whitespace-joined token list produced by `transform t` yields that same
token list, for any input `t`. -/
theorem claim_C8_fixed_point_no_stemming (pipe : TextPipeline)
    (hstem : pipe.stemmer = none) (t : String) :
    pipe.transform (joinTokens (pipe.transform t)) = pipe.transform t :=
  transform_fixed_point pipe hstem t

theorem claim_C8_witness :
    exPipe.stemmer = none ∧
      exPipe.transform (joinTokens (exPipe.transform "Ab <i>c</i> дом!")) =
        exPipe.transform "Ab <i>c</i> дом!" :=
  ⟨rfl, claim_C8_fixed_point_no_stemming exPipe rfl "Ab <i>c</i> дом!"⟩

/-- C9: every similarity score `query` returns lies in `[0, 1]`, and when
the query hashes to the all-zero vector every returned score is exactly
`0` (the zero-norm case is a defined value, not NaN). -/
theorem claim_C9_score_bounds (cfg : VecConfig) (st : TfidfIndexer)
    (tokens : List String) (top_k : Option Int) (d : Document) (s : Score)
    (h : (d, s) ∈ st.query cfg tokens top_k) :
    (0 ≤ s.toReal ∧ s.toReal ≤ 1) ∧
      (sumSq (vectorizerTransform cfg (joinTokens tokens)) = 0 → s.toReal = 0) := by
  obtain ⟨m, _, hzip⟩ := mem_query cfg st tokens top_k h
  obtain ⟨row, hrow⟩ := score_of_mem_zip hzip
  simp only at hrow
  refine ⟨⟨Score.toReal_nonneg s, ?_⟩, ?_⟩
  · rw [hrow]
    exact cosineScore_toReal_le_one _ row
  · intro hzero
    rw [hrow, cosineScore, Score.toReal]
    simp [hzero]

theorem claim_C9_witness :
    ((exDoc "b.txt" ["aa"], (⟨1, 1⟩ : Score)) ∈
      exStateTie.query exCfg ["aa"] none) ∧
    ((0 ≤ (Score.mk 1 1).toReal ∧ (Score.mk 1 1).toReal ≤ 1) ∧
      (sumSq (vectorizerTransform exCfg (joinTokens ["aa"])) = 0 →
        (Score.mk 1 1).toReal = 0)) :=
  ⟨by decide, claim_C9_score_bounds exCfg exStateTie ["aa"] none
    (exDoc "b.txt" ["aa"]) ⟨1, 1⟩ (by decide)⟩

/-- C10: a batch in which every document's token list is empty leaves the
indexer exactly unchanged — `partial_fit` returns before touching either
the corpus matrix or the doc index. -/
theorem claim_C10_all_empty_batch_noop (cfg : VecConfig) (st : TfidfIndexer)
    (chunk : List Document) (h : ∀ d ∈ chunk, d.tokens = []) :
    st.partial_fit cfg chunk = st := by
  unfold TfidfIndexer.partial_fit
  have hfil : chunk.filter (fun d => !d.tokens.isEmpty) = [] := by
    rw [List.filter_eq_nil_iff]
    intro d hd
    rw [h d hd]
    decide
  rw [hfil]
  rfl

theorem claim_C10_witness :
    (∀ d ∈ [exDoc "a.txt" []], d.tokens = []) ∧
      exEmpty.partial_fit exCfg [exDoc "a.txt" []] = exEmpty :=
  ⟨by decide,
    claim_C10_all_empty_batch_noop exCfg exEmpty [exDoc "a.txt" []] (by decide)⟩

end BkDetect
